import Mathlib

/-!
Verification of the flowguide core (mesh preprocessing, hierarchy builder,
orientation-field solver) against its natural-language specification.

The Rust source is shallowly embedded: `f32` arithmetic is modelled by exact
real arithmetic over `ℝ` (so floating tolerance collapses to equality, and
division by zero yields `0` where Rust would produce `inf`/`NaN`), `Vec<T>`
by `List`, and fallible code (Rust panics, or loops whose termination is not
structural) by `Option` with an explicit fuel parameter.  The `usize::MAX`
sentinel used by `hierarchy::build` is modelled by the constant `usizeMax`.
The external pseudo-random generator (`rand::SmallRng`) is modelled by an
abstract interface `RngImpl` with an explicit state that the embedding
threads exactly where the source threads `&mut rng`.
-/

namespace FG

/-- 3-component vector over the reals, modelling `glam::Vec3`. -/
@[ext]
structure Vec3 where
  x : ℝ
  y : ℝ
  z : ℝ

namespace Vec3

def add (a b : Vec3) : Vec3 := ⟨a.x + b.x, a.y + b.y, a.z + b.z⟩

def sub (a b : Vec3) : Vec3 := ⟨a.x - b.x, a.y - b.y, a.z - b.z⟩

def neg (a : Vec3) : Vec3 := ⟨-a.x, -a.y, -a.z⟩

def smul (c : ℝ) (a : Vec3) : Vec3 := ⟨c * a.x, c * a.y, c * a.z⟩

instance : Add Vec3 := ⟨add⟩

instance : Sub Vec3 := ⟨sub⟩

instance : Neg Vec3 := ⟨neg⟩

instance : SMul ℝ Vec3 := ⟨smul⟩

instance : Zero Vec3 := ⟨⟨0, 0, 0⟩⟩

/-- Dot product, modelling `Vec3::dot`. -/
def dot (a b : Vec3) : ℝ := a.x * b.x + a.y * b.y + a.z * b.z

/-- Cross product, modelling `Vec3::cross`. -/
def cross (a b : Vec3) : Vec3 :=
  ⟨a.y * b.z - a.z * b.y, a.z * b.x - a.x * b.z, a.x * b.y - a.y * b.x⟩

/-- Euclidean length, modelling `Vec3::length`. -/
noncomputable def length (a : Vec3) : ℝ := Real.sqrt (dot a a)

/-- Normalization, modelling `Vec3::normalize`; the zero vector maps to zero
(where `glam` would produce non-finite components). -/
noncomputable def normalize (a : Vec3) : Vec3 := (length a)⁻¹ • a

/-- Division of a vector by a scalar, modelling `Vec3 / f32`. -/
noncomputable def divScalar (a : Vec3) (c : ℝ) : Vec3 := ⟨a.x / c, a.y / c, a.z / c⟩

@[simp] theorem add_x (a b : Vec3) : (a + b).x = a.x + b.x := rfl

@[simp] theorem add_y (a b : Vec3) : (a + b).y = a.y + b.y := rfl

@[simp] theorem add_z (a b : Vec3) : (a + b).z = a.z + b.z := rfl

@[simp] theorem sub_x (a b : Vec3) : (a - b).x = a.x - b.x := rfl

@[simp] theorem sub_y (a b : Vec3) : (a - b).y = a.y - b.y := rfl

@[simp] theorem sub_z (a b : Vec3) : (a - b).z = a.z - b.z := rfl

@[simp] theorem neg_x (a : Vec3) : (-a).x = -a.x := rfl

@[simp] theorem neg_y (a : Vec3) : (-a).y = -a.y := rfl

@[simp] theorem neg_z (a : Vec3) : (-a).z = -a.z := rfl

@[simp] theorem smul_x (c : ℝ) (a : Vec3) : (c • a).x = c * a.x := rfl

@[simp] theorem smul_y (c : ℝ) (a : Vec3) : (c • a).y = c * a.y := rfl

@[simp] theorem smul_z (c : ℝ) (a : Vec3) : (c • a).z = c * a.z := rfl

@[simp] theorem zero_x : (0 : Vec3).x = 0 := rfl

@[simp] theorem zero_y : (0 : Vec3).y = 0 := rfl

@[simp] theorem zero_z : (0 : Vec3).z = 0 := rfl

theorem dot_self_nonneg (a : Vec3) : 0 ≤ dot a a := by
  unfold dot
  nlinarith [mul_self_nonneg a.x, mul_self_nonneg a.y, mul_self_nonneg a.z]

theorem dot_self_eq_zero (a : Vec3) : dot a a = 0 ↔ a = 0 := by
  unfold dot
  constructor
  · intro h
    have hx : a.x = 0 := by
      nlinarith [mul_self_nonneg a.x, mul_self_nonneg a.y, mul_self_nonneg a.z]
    have hy : a.y = 0 := by
      nlinarith [mul_self_nonneg a.x, mul_self_nonneg a.y, mul_self_nonneg a.z]
    have hz : a.z = 0 := by
      nlinarith [mul_self_nonneg a.x, mul_self_nonneg a.y, mul_self_nonneg a.z]
    ext
    · rw [hx, zero_x]
    · rw [hy, zero_y]
    · rw [hz, zero_z]
  · intro h
    subst h
    simp

theorem dot_self_pos (a : Vec3) (h : a ≠ 0) : 0 < dot a a := by
  rcases lt_or_eq_of_le (dot_self_nonneg a) with hlt | heq
  · exact hlt
  · exact absurd ((dot_self_eq_zero a).mp heq.symm) h

theorem length_pos (a : Vec3) (h : a ≠ 0) : 0 < length a :=
  Real.sqrt_pos.mpr (dot_self_pos a h)

theorem dot_smul_left (c : ℝ) (a b : Vec3) : dot (c • a) b = c * dot a b := by
  unfold dot
  simp
  ring

theorem dot_sub_left (a b c : Vec3) : dot (a - b) c = dot a c - dot b c := by
  unfold dot
  simp
  ring

/-- Dot product of a normalized vector with itself is 1 when the vector is
nonzero. -/
theorem dot_normalize_self (a : Vec3) (h : a ≠ 0) :
    dot (normalize a) (normalize a) = 1 := by
  unfold normalize
  rw [dot_smul_left]
  unfold dot length
  simp only [smul_x, smul_y, smul_z]
  have hpos := dot_self_pos a h
  have hs : Real.sqrt (dot a a) * Real.sqrt (dot a a) = dot a a :=
    Real.mul_self_sqrt (dot_self_nonneg a)
  have hsp : 0 < Real.sqrt (dot a a) := Real.sqrt_pos.mpr hpos
  field_simp
  unfold dot at hs ⊢
  nlinarith [hs, hsp]

theorem dot_normalize_orth (a n : Vec3) (h : dot a n = 0) :
    dot (normalize a) n = 0 := by
  unfold normalize
  rw [dot_smul_left, h, mul_zero]

theorem normalize_zero : normalize 0 = 0 := by
  unfold normalize
  ext <;> simp

theorem normalize_ne_zero (a : Vec3) (h : normalize a ≠ 0) : a ≠ 0 := by
  intro ha
  exact h (by rw [ha, normalize_zero])

end Vec3

open Vec3

/-- The `usize::MAX` sentinel used by the hierarchy builder to mark
unclaimed vertices. -/
def usizeMax : ℕ := 2 ^ 64 - 1

/-- Model of the seedable pseudo-random generator interface that
`rand::SmallRng` provides to the solver: an explicit state `σ`, seeding from
a 64-bit integer, generation of one uniform float in `[0, 1)`, and an
in-place shuffle of an index list.  The embedding threads the state exactly
where the Rust code threads `&mut rng`. -/
structure RngImpl (σ : Type) where
  seedFromU64 : ℕ → σ
  genFloat : σ → ℝ × σ
  shuffleNats : σ → List ℕ → List ℕ × σ

/-- A lawful generator: `shuffle` returns a permutation of its input and
`gen` returns a number in `[0, 1)`. -/
def ValidRng {σ : Type} (R : RngImpl σ) : Prop :=
  (∀ s l, (R.shuffleNats s l).1.Perm l) ∧
  (∀ s, 0 ≤ (R.genFloat s).1 ∧ (R.genFloat s).1 < 1)

/-- Input mesh as produced by the PLY loader (`mesh.rs`, `InputMesh`). -/
structure InputMesh where
  vertices : List Vec3
  normals : List Vec3
  tris : List (ℕ × ℕ × ℕ)

/-- Preprocessed mesh (`mesh.rs`, `ProcessMesh`): adjacency stores, per
vertex, the list of (neighbor, originating triangle) pairs. -/
structure ProcessMesh where
  vertices : List Vec3
  normals : List Vec3
  tris : List (ℕ × ℕ × ℕ)
  adjacency_face : List (List (ℕ × ℕ))
  dual_area : List ℝ

def emptyMesh : ProcessMesh := ⟨[], [], [], [], []⟩

/-- Adjacency derivation from the triangle list (`From<InputMesh>` lines
43-49): triangle `(a, b, c)` contributes `(b, i)` to `a`, `(c, i)` to `b`,
`(a, i)` to `c`. -/
def adjacencyFromTris (nv : ℕ) (tris : List (ℕ × ℕ × ℕ)) : List (List (ℕ × ℕ)) :=
  tris.enum.foldl
    (fun adj e =>
      let i := e.1
      let a := e.2.1
      let b := e.2.2.1
      let c := e.2.2.2
      let adj1 := adj.set a (adj.getD a [] ++ [(b, i)])
      let adj2 := adj1.set b (adj1.getD b [] ++ [(c, i)])
      adj2.set c (adj2.getD c [] ++ [(a, i)]))
    (List.replicate nv [])

/-- The three vertices of a triangle as a list, for cyclic indexing. -/
def triList (t : ℕ × ℕ × ℕ) : List ℕ := [t.1, t.2.1, t.2.2]

/-- Circumcenter step of the dual-area walk (lines 65-68): the circumcenter
of the current triangle in coordinates local to its third vertex. -/
noncomputable def circumcenterLocal (va vb vc : Vec3) : Vec3 :=
  let a := va - vc
  let b := vb - vc
  let axb := cross a b
  divScalar (cross (dot a a • b - dot b b • a) axb) (2 * dot axb axb)

/-- Result of walking one vertex one-ring: either the ring closed with the
accumulated circumcenters, or a non-manifold configuration was detected. -/
inductive WalkOut where
  | closed (ccs : List Vec3) : WalkOut
  | nonManifold : WalkOut

/-- One-ring walk of the dual-area derivation (`mesh.rs` lines 58-78),
with fuel standing in for the unbounded `while`; `none` means the walk
did not finish within `fuel` steps or an indexing panic occurred. -/
noncomputable def oneRingWalk (input : InputMesh) (src start : ℕ) :
    ℕ → ℕ → (ℕ × ℕ × ℕ) → List Vec3 → Option WalkOut
  | 0, _, _, _ => none
  | fuel + 1, dest, tri, ccs =>
    let tl := triList tri
    if dest ∈ tl then
      let dest2 := tl.getD ((tl.indexOf dest + 1) % 3) 0
      if dest2 = start then
        some (WalkOut.closed ccs)
      else
        let cc := circumcenterLocal
          (input.vertices.getD tri.1 0)
          (input.vertices.getD tri.2.1 0)
          (input.vertices.getD tri.2.2 0)
        match ((adjacencyFromTris input.vertices.length input.tris).getD src []).find?
            (fun v => v.1 = dest2) with
        | some nf => oneRingWalk input src start fuel dest2 (input.tris.getD nf.2 (0, 0, 0)) (ccs ++ [cc])
        | none => some WalkOut.nonManifold
    else
      none

/-- Shoelace-style accumulation over the circumcenter loop (lines 80-84). -/
def shoelace (ccs : List Vec3) : Vec3 :=
  (List.range ccs.length).foldl
    (fun v i => v + cross (ccs.getD i 0) (ccs.getD ((i + 1) % ccs.length) 0)) 0

/-- Dual area of one vertex (`mesh.rs` lines 51-86): `none` models the
panic on a vertex with an empty adjacency list (the `adjacency_face[src][0]`
indexing) or a walk that does not terminate within the fuel. -/
noncomputable def dualAreaOf (input : InputMesh) (fuel : ℕ) (i : ℕ) : Option ℝ :=
  let adj := (adjacencyFromTris input.vertices.length input.tris).getD i []
  match adj with
  | [] => none
  | (dest0, face0) :: _ =>
    match oneRingWalk input i dest0 fuel dest0 (input.tris.getD face0 (0, 0, 0)) [] with
    | some (WalkOut.closed ccs) => some (0.5 * length (shoelace ccs))
    | some WalkOut.nonManifold => some 1
    | none => none

/-- The full `From<InputMesh> for ProcessMesh` conversion; `none` models an
unrecoverable error (panic / non-termination) during the dual-area
derivation. -/
noncomputable def processMeshFrom (fuel : ℕ) (input : InputMesh) : Option ProcessMesh :=
  ((List.range input.vertices.length).mapM (dualAreaOf input fuel)).map
    (fun areas =>
      { vertices := input.vertices
        normals := input.normals
        tris := input.tris
        adjacency_face := adjacencyFromTris input.vertices.length input.tris
        dual_area := areas })

/-- One hierarchy level (`hierarchy.rs`): a mesh plus the fine-to-coarse
vertex map of this level's mesh into the next coarser mesh. -/
structure HierarchyLevel where
  mesh : ProcessMesh
  up_mapping : List ℕ

/-- Merge score of the directed edge `(i, j)` (`hierarchy.rs` lines 13-18). -/
noncomputable def rankScore (mesh : ProcessMesh) (i j : ℕ) : ℝ :=
  let ai := mesh.dual_area.getD i 0
  let aj := mesh.dual_area.getD j 0
  let r := if ai > aj then ai / aj else aj / ai
  dot (mesh.normals.getD i 0) (mesh.normals.getD j 0) * r

/-- The edge ranking (`hierarchy.rs` lines 9-21): one scored entry per
directed adjacency edge. -/
noncomputable def ranking (mesh : ProcessMesh) : List (ℕ × ℕ × ℝ) :=
  mesh.adjacency_face.enum.flatMap
    (fun p => p.2.map (fun e => (p.1, e.1, rankScore mesh p.1 e.1)))

/-- Descending-score comparison used to sort the ranking (line 32). -/
def rankLE (a b : ℕ × ℕ × ℝ) : Prop := b.2.2 ≤ a.2.2

noncomputable instance : DecidableRel rankLE :=
  fun a b => Real.decidableLE b.2.2 a.2.2

/-- The ranking sorted by descending score (line 32); `sort_unstable_by` is
modelled by insertion sort with the same comparator. -/
noncomputable def sortedRanking (mesh : ProcessMesh) : List (ℕ × ℕ × ℝ) :=
  (ranking mesh).insertionSort rankLE

/-- Accumulator of the greedy merge scan (`hierarchy.rs` lines 34-64): the
growing coarse vertex attribute arrays and the up-mapping
(`usizeMax` = unclaimed). -/
structure MergeState where
  vertices : List Vec3
  normals : List Vec3
  dual_area : List ℝ
  up_mapping : List ℕ

/-- One step of the greedy scan (lines 38-53): merge the edge's endpoints
when neither is claimed. -/
noncomputable def scanStep (mesh : ProcessMesh) (st : MergeState) (e : ℕ × ℕ × ℝ) :
    MergeState :=
  let i := e.1
  let j := e.2.1
  if st.up_mapping.getD i usizeMax ≠ usizeMax ∨ st.up_mapping.getD j usizeMax ≠ usizeMax then
    st
  else
    let ai := mesh.dual_area.getD i 0
    let aj := mesh.dual_area.getD j 0
    let total := ai + aj
    { vertices := st.vertices ++
        [divScalar (ai • mesh.vertices.getD i 0 + aj • mesh.vertices.getD j 0) total]
      normals := st.normals ++
        [normalize (ai • mesh.normals.getD i 0 + aj • mesh.normals.getD j 0)]
      dual_area := st.dual_area ++ [total]
      up_mapping := (st.up_mapping.set i st.vertices.length).set j st.vertices.length }

/-- The greedy scan over a sorted edge list. -/
noncomputable def scanMerges (mesh : ProcessMesh) (es : List (ℕ × ℕ × ℝ)) : MergeState :=
  es.foldl (scanStep mesh) ⟨[], [], [], List.replicate mesh.vertices.length usizeMax⟩

/-- Singleton pass (lines 55-64): every unclaimed vertex becomes a coarse
vertex of its own. -/
def addSingle (mesh : ProcessMesh) (st : MergeState) (i : ℕ) : MergeState :=
  if st.up_mapping.getD i usizeMax = usizeMax then
    { vertices := st.vertices ++ [mesh.vertices.getD i 0]
      normals := st.normals ++ [mesh.normals.getD i 0]
      dual_area := st.dual_area ++ [mesh.dual_area.getD i 0]
      up_mapping := st.up_mapping.set i st.vertices.length }
  else st

def withSingles (mesh : ProcessMesh) (st : MergeState) : MergeState :=
  (List.range mesh.vertices.length).foldl (addSingle mesh) st

/-- Raw coarse adjacency (lines 66-75): every fine edge is mapped through
the up-mapping, dropping self-loops. -/
def coarseAdjacencyRaw (mesh : ProcessMesh) (up : List ℕ) (nv : ℕ) :
    List (List (ℕ × ℕ)) :=
  mesh.adjacency_face.enum.foldl
    (fun acc p =>
      p.2.foldl
        (fun acc2 e =>
          let iu := up.getD p.1 usizeMax
          let ju := up.getD e.1 usizeMax
          if iu ≠ ju then acc2.set iu (acc2.getD iu [] ++ [(ju, usizeMax)]) else acc2)
        acc)
    (List.replicate nv [])

/-- Removal of consecutive duplicates, modelling `Vec::dedup`. -/
def dedupC {α : Type} [DecidableEq α] : List α → List α
  | [] => []
  | [a] => [a]
  | a :: b :: t => if a = b then dedupC (a :: t) else a :: dedupC (b :: t)

/-- Key comparison for the per-list adjacency sort (line 78). -/
def keyLE (a b : ℕ × ℕ) : Prop := a.1 ≤ b.1

instance : DecidableRel keyLE := fun a b => Nat.decLe a.1 b.1

/-- Coarse adjacency after per-vertex sort and dedup (lines 77-80). -/
def coarseAdjacency (mesh : ProcessMesh) (up : List ℕ) (nv : ℕ) :
    List (List (ℕ × ℕ)) :=
  (coarseAdjacencyRaw mesh up nv).map (fun a => dedupC (a.insertionSort keyLE))

/-- One full coarsening step (`hierarchy.rs` lines 9-87): the coarse mesh
and the up-mapping from the fine mesh into it. -/
noncomputable def coarsen (mesh : ProcessMesh) : ProcessMesh × List ℕ :=
  let st := withSingles mesh (scanMerges mesh (sortedRanking mesh))
  ({ vertices := st.vertices
     normals := st.normals
     tris := []
     adjacency_face := coarseAdjacency mesh st.up_mapping st.vertices.length
     dual_area := st.dual_area },
   st.up_mapping)

/-- The recursive hierarchy builder (`hierarchy.rs` `build`), with fuel
standing in for the recursion whose termination the Rust code leaves
implicit; `none` means the fuel ran out before the terminal (zero-edge)
case was reached. -/
noncomputable def build : ℕ → ProcessMesh → Option (List HierarchyLevel)
  | fuel, mesh =>
    if (ranking mesh).isEmpty then some [⟨mesh, []⟩]
    else
      match fuel with
      | 0 => none
      | f + 1 =>
        let c := coarsen mesh
        (build f c.1).map (fun up => up ++ [⟨mesh, c.2⟩])

/-- The eight candidate representative pairs of the symmetric compatibility
rule (`orientation.rs` lines 11-20). -/
def compatPairs (o0 n0 o1 n1 : Vec3) : List (Vec3 × Vec3) :=
  let p0 := cross n0 o0
  let p1 := cross n1 o1
  [(o0, o1), (p0, o1), (-o0, o1), (-p0, o1), (o0, p1), (p0, p1), (-o0, p1), (-p0, p1)]

/-- Model of `Iterator::max_by_key` on the dot-product key: ties keep the
later element, which matches the Rust documentation. -/
noncomputable def maxByDot (l : List (Vec3 × Vec3)) (a : Vec3 × Vec3) : Vec3 × Vec3 :=
  l.foldl (fun acc p => if dot acc.1 acc.2 ≤ dot p.1 p.2 then p else acc) a

/-- The symmetric compatibility rule (`orientation.rs` lines 7-25). -/
noncomputable def extrinsic_compat (o0 n0 o1 n1 : Vec3) : Vec3 × Vec3 :=
  match compatPairs o0 n0 o1 n1 with
  | [] => (0, 0)
  | a :: t => maxByDot t a

/-- One neighbor update inside the relaxation (lines 35-44): combine with
the best-aligned representatives, project to the tangent plane, normalize. -/
noncomputable def neighborStep (mesh : ProcessMesh) (nI : Vec3) (field : List Vec3)
    (o : Vec3) (we : ℕ × ℕ × ℕ) : Vec3 :=
  let oj := field.getD we.2.1 0
  let nj := mesh.normals.getD we.2.1 0
  let c := extrinsic_compat o nI oj nj
  let o1 := (we.1 : ℝ) • c.1 + c.2
  let o2 := o1 - dot o1 nI • nI
  normalize o2

/-- The per-vertex update of a sweep (lines 31-47). -/
noncomputable def updateVertex (mesh : ProcessMesh) (field : List Vec3) (i : ℕ) : Vec3 :=
  (mesh.adjacency_face.getD i []).enum.foldl
    (neighborStep mesh (mesh.normals.getD i 0) field)
    (field.getD i 0)

/-- One Gauss-Seidel sweep over a fixed visiting order: each visited vertex
is updated in place. -/
noncomputable def sweepOnce (mesh : ProcessMesh) (perm : List ℕ) (field : List Vec3) :
    List Vec3 :=
  perm.foldl (fun f i => f.set i (updateVertex mesh f i)) field

/-- `extrinsic_smooth` (lines 27-48): shuffle the vertex indices, then
sweep in that order. -/
noncomputable def extrinsic_smooth {σ : Type} (R : RngImpl σ) (mesh : ProcessMesh)
    (st : List Vec3 × σ) : List Vec3 × σ :=
  let sh := R.shuffleNats st.2 (List.range mesh.vertices.length)
  (sweepOnce mesh sh.1 st.1, sh.2)

/-- The per-level iteration loop (lines 77-79). -/
noncomputable def sweepIter {σ : Type} (R : RngImpl σ) (mesh : ProcessMesh)
    (its : ℕ) (st : List Vec3 × σ) : List Vec3 × σ :=
  (fun s => extrinsic_smooth R mesh s)^[its] st

/-- `std::f32::consts::TAU`. -/
noncomputable def tau : ℝ := 2 * Real.pi

/-- Branchless tangent-basis initialization of one coarsest-level vertex
(lines 63-72). -/
noncomputable def initVertex (n : Vec3) (theta : ℝ) : Vec3 :=
  let sign : ℝ := if n.z < 0 then -1 else 1
  let a := -1 / (sign + n.z)
  let b := n.x * n.y * a
  let x : Vec3 := ⟨1 + sign * n.x * n.x * a, sign * b, -(sign * n.x)⟩
  let y : Vec3 := ⟨b, sign + n.y * n.y * a, -n.y⟩
  Real.cos theta • x + Real.sin theta • y

/-- Coarsest-level random initialization (lines 61-74): one random angle
per vertex, drawn in vertex order from the threaded generator. -/
noncomputable def initField {σ : Type} (R : RngImpl σ) (mesh : ProcessMesh) (s : σ) :
    List Vec3 × σ :=
  (List.range mesh.vertices.length).foldl
    (fun acc i =>
      let g := R.genFloat acc.2
      (acc.1 ++ [initVertex (mesh.normals.getD i 0) (g.1 * tau)], g.2))
    ([], s)

/-- Propagation of a coarse field to a finer level (lines 54-59). -/
def propagate (coarse : List Vec3) (lvl : HierarchyLevel) : List Vec3 :=
  (List.range lvl.mesh.vertices.length).map
    (fun i => coarse.getD (lvl.up_mapping.getD i 0) 0)

/-- `hierarchical_smoothing` (`orientation.rs` lines 50-82).  Each
recursive call seeds a fresh generator from the constant 0, exactly as the
source does. -/
noncomputable def hierarchical_smoothing {σ : Type} (R : RngImpl σ) :
    List HierarchyLevel → ℕ → List Vec3
  | levels, its =>
    let lastL := levels.getLast?.getD ⟨emptyMesh, []⟩
    let rng0 := R.seedFromU64 0
    let start : List Vec3 × σ :=
      if _h : 1 < levels.length then
        (propagate (hierarchical_smoothing R levels.dropLast its) lastL, rng0)
      else
        initField R lastL.mesh rng0
    (sweepIter R lastL.mesh its start).1
  termination_by levels _ => levels.length
  decreasing_by
    simp only [List.length_dropLast]
    omega

/-- The initial field of the finest level of `levels` as
`hierarchical_smoothing` computes it: the propagated coarse solution when
there is a coarser level, the random tangent initialization otherwise;
paired with the generator state the sweeps then start from. -/
noncomputable def levelEntry {σ : Type} (R : RngImpl σ) (levels : List HierarchyLevel)
    (its : ℕ) : List Vec3 × σ :=
  let lastL := levels.getLast?.getD ⟨emptyMesh, []⟩
  let rng0 := R.seedFromU64 0
  if _h : 1 < levels.length then
    (propagate (hierarchical_smoothing R levels.dropLast its) lastL, rng0)
  else
    initField R lastL.mesh rng0

theorem hierarchical_smoothing_eq {σ : Type} (R : RngImpl σ)
    (levels : List HierarchyLevel) (its : ℕ) :
    hierarchical_smoothing R levels its =
      (sweepIter R (levels.getLast?.getD ⟨emptyMesh, []⟩).mesh its
        (levelEntry R levels its)).1 := by
  rw [hierarchical_smoothing]
  rfl

/-! ### C1: dual-area derivation on a mesh with an isolated vertex -/

/-- An input mesh with a single vertex and no triangles: the isolated-point
case the specification requires to be handled. -/
noncomputable def isoInput : InputMesh :=
  ⟨[⟨0, 0, 0⟩], [⟨0, 0, 1⟩], []⟩

/-- C1: the dual-area derivation reads `adjacency_face[src][0]` without
checking for emptiness, so a vertex with zero incident triangles makes the
conversion fail (out-of-bounds panic) instead of being handled as an
isolated point: the conversion of `isoInput` errors for any walk fuel. -/
theorem C1_from_panics_on_isolated_vertex (fuel : ℕ) :
    processMeshFrom fuel isoInput = none := by
  have hadj : adjacencyFromTris isoInput.vertices.length isoInput.tris = [[]] := rfl
  unfold processMeshFrom
  have h0 : dualAreaOf isoInput fuel 0 = none := by
    unfold dualAreaOf
    rw [hadj]
    rfl
  have hrange : List.range isoInput.vertices.length = [0] := rfl
  rw [hrange]
  simp [List.mapM.loop, h0]

/-- Closed form of C1's failing input at a definite fuel. -/
theorem C1_from_panics_on_isolated_vertex_witness :
    processMeshFrom 100 isoInput = none :=
  C1_from_panics_on_isolated_vertex 100

/-! ### C4: the compatibility rule returns a maximal pair -/

theorem maxByDot_mem_le (t : List (Vec3 × Vec3)) (a : Vec3 × Vec3) :
    maxByDot t a ∈ a :: t ∧
      ∀ p ∈ a :: t, dot p.1 p.2 ≤ dot (maxByDot t a).1 (maxByDot t a).2 := by
  induction t generalizing a with
  | nil =>
    constructor
    · simp [maxByDot]
    · intro p hp
      simp only [List.mem_singleton] at hp
      subst hp
      simp [maxByDot]
  | cons q t ih =>
    have step : maxByDot (q :: t) a =
        maxByDot t (if dot a.1 a.2 ≤ dot q.1 q.2 then q else a) := rfl
    by_cases h : dot a.1 a.2 ≤ dot q.1 q.2
    · rw [step, if_pos h]
      rcases ih q with ⟨hm, hle⟩
      constructor
      · rcases List.mem_cons.mp hm with h1 | h1
        · rw [h1]
          simp
        · exact List.mem_cons_of_mem a (List.mem_cons_of_mem q h1)
      · intro p hp
        rcases List.mem_cons.mp hp with h1 | h1
        · subst h1
          exact le_trans h (hle q (List.mem_cons_self q t))
        · exact hle p h1
    · rw [step, if_neg h]
      rcases ih a with ⟨hm, hle⟩
      constructor
      · rcases List.mem_cons.mp hm with h1 | h1
        · rw [h1]
          simp
        · exact List.mem_cons_of_mem a (List.mem_cons_of_mem q h1)
      · intro p hp
        rcases List.mem_cons.mp hp with h1 | h1
        · subst h1
          exact hle p (List.mem_cons_self p t)
        · rcases List.mem_cons.mp h1 with h2 | h2
          · subst h2
            exact le_trans (le_of_not_le h)
              (hle a (List.mem_cons_self a t))
          · exact hle p (List.mem_cons_of_mem a h2)

/-- C4: `extrinsic_compat` returns one of the eight candidate pairs
(representatives `{o0, p0, -o0, -p0}` of vertex 0 paired with `{o1, p1}` of
vertex 1, where `p0 = n0 × o0` and `p1 = n1 × o1`), and its dot product is
maximal among those eight. -/
theorem C4_extrinsic_compat_is_max (o0 n0 o1 n1 : Vec3) :
    extrinsic_compat o0 n0 o1 n1 ∈ compatPairs o0 n0 o1 n1 ∧
      ∀ p ∈ compatPairs o0 n0 o1 n1,
        dot p.1 p.2 ≤
          dot (extrinsic_compat o0 n0 o1 n1).1 (extrinsic_compat o0 n0 o1 n1).2 := by
  have he : extrinsic_compat o0 n0 o1 n1 =
      maxByDot
        [(cross n0 o0, o1), (-o0, o1), (-(cross n0 o0), o1),
          (o0, cross n1 o1), (cross n0 o0, cross n1 o1), (-o0, cross n1 o1),
          (-(cross n0 o0), cross n1 o1)]
        (o0, o1) := rfl
  have hc : compatPairs o0 n0 o1 n1 =
      (o0, o1) ::
        [(cross n0 o0, o1), (-o0, o1), (-(cross n0 o0), o1),
          (o0, cross n1 o1), (cross n0 o0, cross n1 o1), (-o0, cross n1 o1),
          (-(cross n0 o0), cross n1 o1)] := rfl
  rw [he, hc]
  exact maxByDot_mem_le _ _

/-! ### C5: the per-vertex update rule -/

/-- The per-vertex update as the specification words it: a running value
starting at the vertex's own direction, folded over the adjacency list in
order with an explicit 0-based position counter as the weight, each step
combining via the compatibility rule, projecting out the normal component
and re-normalizing. -/
noncomputable def updateVertexSpecGo (mesh : ProcessMesh) (nI : Vec3)
    (field : List Vec3) : ℕ → Vec3 → List (ℕ × ℕ) → Vec3
  | _, o, [] => o
  | w, o, e :: rest =>
    let oj := field.getD e.1 0
    let nj := mesh.normals.getD e.1 0
    let c := extrinsic_compat o nI oj nj
    let o1 := (w : ℝ) • c.1 + c.2
    let o2 := o1 - dot o1 nI • nI
    updateVertexSpecGo mesh nI field (w + 1) (normalize o2) rest

/-- The specification-side form of the update rule for vertex `i`. -/
noncomputable def updateVertexSpec (mesh : ProcessMesh) (field : List Vec3) (i : ℕ) :
    Vec3 :=
  updateVertexSpecGo mesh (mesh.normals.getD i 0) field 0 (field.getD i 0)
    (mesh.adjacency_face.getD i [])

theorem enumFrom_foldl_eq_go (mesh : ProcessMesh) (nI : Vec3) (field : List Vec3)
    (l : List (ℕ × ℕ)) (k : ℕ) (o : Vec3) :
    (l.enumFrom k).foldl (neighborStep mesh nI field) o =
      updateVertexSpecGo mesh nI field k o l := by
  induction l generalizing k o with
  | nil => rfl
  | cons e rest ih =>
    have h1 : (e :: rest).enumFrom k = (k, e) :: rest.enumFrom (k + 1) := rfl
    rw [h1, List.foldl_cons, ih]
    rfl

theorem updateVertex_eq_spec (mesh : ProcessMesh) (field : List Vec3) (i : ℕ) :
    updateVertex mesh field i = updateVertexSpec mesh field i := by
  unfold updateVertex updateVertexSpec
  rw [show (mesh.adjacency_face.getD i []).enum =
      (mesh.adjacency_face.getD i []).enumFrom 0 from rfl]
  exact enumFrom_foldl_eq_go mesh _ field _ 0 _

/-- C5: on every visit of a vertex `v`, the stored direction is computed by
starting a running value at `v`'s current direction, folding over `v`'s
adjacency list in order with the neighbor's 0-based position as weight,
setting the running value to weight × (compatibility representative of the
running value) + (compatibility representative of the neighbor), projecting
out the component along `v`'s own normal and re-normalizing. -/
theorem C5_update_rule (mesh : ProcessMesh) (field : List Vec3) (i : ℕ) :
    updateVertex mesh field i = updateVertexSpec mesh field i :=
  updateVertex_eq_spec mesh field i

/-! ### C2 (amended): swept directions are unit and tangent -/

theorem dot_project_out (o n : Vec3) (hn : dot n n = 1) :
    dot (o - dot o n • n) n = 0 := by
  rw [dot_sub_left, dot_smul_left, hn, mul_one, sub_self]

theorem updateVertexSpecGo_unit_orth (mesh : ProcessMesh) (nI : Vec3)
    (field : List Vec3) (l : List (ℕ × ℕ)) :
    ∀ (k : ℕ) (o : Vec3), l ≠ [] → dot nI nI = 1 →
      updateVertexSpecGo mesh nI field k o l ≠ 0 →
      dot (updateVertexSpecGo mesh nI field k o l)
          (updateVertexSpecGo mesh nI field k o l) = 1 ∧
        dot (updateVertexSpecGo mesh nI field k o l) nI = 0 := by
  induction l with
  | nil => intro k o hne; exact absurd rfl hne
  | cons e rest ih =>
    intro k o _ hn hnz
    cases rest with
    | nil =>
      set oj := field.getD e.1 0 with hoj
      set nj := mesh.normals.getD e.1 0 with hnj
      set c := extrinsic_compat o nI oj nj with hc
      set o1 := (k : ℝ) • c.1 + c.2 with ho1
      set o2 := o1 - dot o1 nI • nI with ho2
      have hgo : updateVertexSpecGo mesh nI field k o [e] = normalize o2 := rfl
      rw [hgo] at hnz ⊢
      have ho2ne : o2 ≠ 0 := normalize_ne_zero o2 hnz
      refine ⟨dot_normalize_self o2 ho2ne, ?_⟩
      exact dot_normalize_orth o2 nI (dot_project_out o1 nI hn)
    | cons e2 rest2 =>
      have hgo : updateVertexSpecGo mesh nI field k o (e :: e2 :: rest2) =
          updateVertexSpecGo mesh nI field (k + 1)
            (normalize
              (((k : ℝ) •
                  (extrinsic_compat o nI (field.getD e.1 0)
                    (mesh.normals.getD e.1 0)).1 +
                  (extrinsic_compat o nI (field.getD e.1 0)
                    (mesh.normals.getD e.1 0)).2) -
                dot
                  ((k : ℝ) •
                    (extrinsic_compat o nI (field.getD e.1 0)
                      (mesh.normals.getD e.1 0)).1 +
                    (extrinsic_compat o nI (field.getD e.1 0)
                      (mesh.normals.getD e.1 0)).2) nI • nI))
            (e2 :: rest2) := rfl
      rw [hgo] at hnz ⊢
      exact ih (k + 1) _ (List.cons_ne_nil e2 rest2) hn hnz

theorem updateVertex_unit_orth (mesh : ProcessMesh) (field : List Vec3) (i : ℕ)
    (hadj : mesh.adjacency_face.getD i [] ≠ [])
    (hn : dot (mesh.normals.getD i 0) (mesh.normals.getD i 0) = 1)
    (hnz : updateVertex mesh field i ≠ 0) :
    dot (updateVertex mesh field i) (updateVertex mesh field i) = 1 ∧
      dot (updateVertex mesh field i) (mesh.normals.getD i 0) = 0 := by
  rw [updateVertex_eq_spec] at hnz ⊢
  exact updateVertexSpecGo_unit_orth mesh _ field _ 0 _ hadj hn hnz

theorem getD_set_ne {α : Type} (f : List α) (j : ℕ) (v : α) (i : ℕ) (d : α)
    (h : i ≠ j) : (f.set j v).getD i d = f.getD i d := by
  induction f generalizing i j with
  | nil => rfl
  | cons a t ih =>
    cases j with
    | zero =>
      cases i with
      | zero => exact absurd rfl h
      | succ i2 => rfl
    | succ j2 =>
      cases i with
      | zero => rfl
      | succ i2 =>
        have h2 : i2 ≠ j2 := fun hh => h (by rw [hh])
        calc ((a :: t).set (j2 + 1) v).getD (i2 + 1) d
            = (t.set j2 v).getD i2 d := rfl
          _ = t.getD i2 d := ih j2 i2 h2
          _ = (a :: t).getD (i2 + 1) d := rfl

theorem getD_set_self {α : Type} (f : List α) (j : ℕ) (v d : α)
    (hj : j < f.length) : (f.set j v).getD j d = v := by
  induction f generalizing j with
  | nil => simp at hj
  | cons a t ih =>
    cases j with
    | zero => rfl
    | succ j2 =>
      have hj2 : j2 < t.length := by simpa using hj
      calc ((a :: t).set (j2 + 1) v).getD (j2 + 1) d
          = (t.set j2 v).getD j2 d := rfl
        _ = v := ih j2 hj2

theorem sweepOnce_getD_not_mem (mesh : ProcessMesh) (l : List ℕ) (f : List Vec3)
    (i : ℕ) (hi : i ∉ l) : (sweepOnce mesh l f).getD i 0 = f.getD i 0 := by
  induction l generalizing f with
  | nil => rfl
  | cons p rest ih =>
    have hstep : sweepOnce mesh (p :: rest) f =
        sweepOnce mesh rest (f.set p (updateVertex mesh f p)) := rfl
    have hip : i ≠ p := fun hh => hi (hh ▸ List.mem_cons_self p rest)
    have hrest : i ∉ rest := fun hh => hi (List.mem_cons_of_mem p hh)
    rw [hstep, ih _ hrest, getD_set_ne f p _ i 0 hip]

theorem sweepOnce_entry_unit_orth (mesh : ProcessMesh) (perm : List ℕ)
    (field : List Vec3) (i : ℕ)
    (hi : i ∈ perm)
    (hadj : mesh.adjacency_face.getD i [] ≠ [])
    (hn : dot (mesh.normals.getD i 0) (mesh.normals.getD i 0) = 1)
    (hnz : (sweepOnce mesh perm field).getD i 0 ≠ 0) :
    dot ((sweepOnce mesh perm field).getD i 0)
        ((sweepOnce mesh perm field).getD i 0) = 1 ∧
      dot ((sweepOnce mesh perm field).getD i 0) (mesh.normals.getD i 0) = 0 := by
  induction perm generalizing field with
  | nil => cases hi
  | cons p rest ih =>
    have hstep : sweepOnce mesh (p :: rest) field =
        sweepOnce mesh rest (field.set p (updateVertex mesh field p)) := rfl
    by_cases hmem : i ∈ rest
    · rw [hstep] at hnz ⊢
      exact ih _ hmem hnz
    · have hip : i = p := by
        rcases List.mem_cons.mp hi with h1 | h1
        · exact h1
        · exact absurd h1 hmem
      subst hip
      rw [hstep] at hnz ⊢
      rw [sweepOnce_getD_not_mem mesh rest _ i hmem] at hnz ⊢
      by_cases hlen : i < field.length
      · rw [getD_set_self field i _ 0 hlen] at hnz ⊢
        exact updateVertex_unit_orth mesh field i hadj hn hnz
      · have hdef : (field.set i (updateVertex mesh field i)).getD i 0 = 0 := by
          have hset : field.set i (updateVertex mesh field i) = field := by
            apply List.set_eq_of_length_le
            omega
          rw [hset]
          apply List.getD_eq_default
          omega
        exact absurd hdef hnz

/-- C2 (amended): after any relaxation sweep, the direction stored at every
visited vertex that has at least one neighbor, a unit normal, and a nonzero
stored result (the zero case is the degenerate accumulator that the code
turns into non-finite components) is unit length and orthogonal to that
vertex's own normal.  Inherited initial directions after propagation are
not covered: they are tangent to the coarse parent's normal, not
necessarily to the fine vertex's own normal. -/
theorem C2_sweep_output_unit_tangent {σ : Type} (R : RngImpl σ)
    (mesh : ProcessMesh) (st : List Vec3 × σ) (i : ℕ)
    (hi : i ∈ (R.shuffleNats st.2 (List.range mesh.vertices.length)).1)
    (hadj : mesh.adjacency_face.getD i [] ≠ [])
    (hn : dot (mesh.normals.getD i 0) (mesh.normals.getD i 0) = 1)
    (hnz : (extrinsic_smooth R mesh st).1.getD i 0 ≠ 0) :
    dot ((extrinsic_smooth R mesh st).1.getD i 0)
        ((extrinsic_smooth R mesh st).1.getD i 0) = 1 ∧
      dot ((extrinsic_smooth R mesh st).1.getD i 0) (mesh.normals.getD i 0) = 0 := by
  have hE : (extrinsic_smooth R mesh st).1 =
      sweepOnce mesh (R.shuffleNats st.2 (List.range mesh.vertices.length)).1 st.1 :=
    rfl
  rw [hE] at hnz ⊢
  exact sweepOnce_entry_unit_orth mesh _ st.1 i hi hadj hn hnz

/-- A concrete lawful generator with trivial behavior: the identity
shuffle and the constant draw 1/4. -/
noncomputable def pureRng : RngImpl ℕ :=
  ⟨fun _ => 0, fun s => (1 / 4, s + 1), fun s l => (l, s)⟩

/-- Concrete two-vertex mesh used to witness the sweep theorem. -/
noncomputable def meshW : ProcessMesh :=
  ⟨[⟨0, 0, 0⟩, ⟨1, 0, 0⟩], [⟨0, 0, 1⟩, ⟨0, 0, 1⟩], [], [[(1, 0)], []], [1, 1]⟩

noncomputable def fieldW : List Vec3 := [⟨1, 0, 0⟩, ⟨1, 0, 0⟩]

theorem crossW : cross ⟨0, 0, 1⟩ ⟨1, 0, 0⟩ = (⟨0, 1, 0⟩ : Vec3) := by
  unfold cross
  ext <;> norm_num

theorem compatW :
    extrinsic_compat ⟨1, 0, 0⟩ ⟨0, 0, 1⟩ ⟨1, 0, 0⟩ ⟨0, 0, 1⟩ =
      ((⟨0, 1, 0⟩ : Vec3), (⟨0, 1, 0⟩ : Vec3)) := by
  have he : extrinsic_compat ⟨1, 0, 0⟩ ⟨0, 0, 1⟩ ⟨1, 0, 0⟩ ⟨0, 0, 1⟩ =
      maxByDot
        [(cross ⟨0, 0, 1⟩ ⟨1, 0, 0⟩, ⟨1, 0, 0⟩), (-⟨1, 0, 0⟩, ⟨1, 0, 0⟩),
          (-(cross ⟨0, 0, 1⟩ ⟨1, 0, 0⟩), ⟨1, 0, 0⟩),
          (⟨1, 0, 0⟩, cross ⟨0, 0, 1⟩ ⟨1, 0, 0⟩),
          (cross ⟨0, 0, 1⟩ ⟨1, 0, 0⟩, cross ⟨0, 0, 1⟩ ⟨1, 0, 0⟩),
          (-⟨1, 0, 0⟩, cross ⟨0, 0, 1⟩ ⟨1, 0, 0⟩),
          (-(cross ⟨0, 0, 1⟩ ⟨1, 0, 0⟩), cross ⟨0, 0, 1⟩ ⟨1, 0, 0⟩)]
        (⟨1, 0, 0⟩, ⟨1, 0, 0⟩) := rfl
  rw [he, crossW]
  unfold maxByDot
  simp only [List.foldl_cons, List.foldl_nil]
  norm_num [Vec3.dot]

theorem updateW : updateVertex meshW fieldW 0 = (⟨0, 1, 0⟩ : Vec3) := by
  have h1 : updateVertex meshW fieldW 0 =
      neighborStep meshW ⟨0, 0, 1⟩ fieldW ⟨1, 0, 0⟩ (0, 1, 0) := rfl
  rw [h1]
  unfold neighborStep
  simp only []
  rw [show fieldW.getD 1 0 = (⟨1, 0, 0⟩ : Vec3) from rfl,
    show meshW.normals.getD 1 0 = (⟨0, 0, 1⟩ : Vec3) from rfl, compatW]
  have h2 : ((0 : ℕ) : ℝ) • (⟨0, 1, 0⟩ : Vec3) + ⟨0, 1, 0⟩ = (⟨0, 1, 0⟩ : Vec3) := by
    ext <;> norm_num
  rw [h2]
  have h3 : dot ⟨0, 1, 0⟩ (⟨0, 0, 1⟩ : Vec3) = 0 := by
    norm_num [Vec3.dot]
  rw [h3]
  have h4 : (⟨0, 1, 0⟩ : Vec3) - (0 : ℝ) • ⟨0, 0, 1⟩ = (⟨0, 1, 0⟩ : Vec3) := by
    ext <;> norm_num
  rw [h4]
  unfold Vec3.normalize Vec3.length
  have h5 : dot ⟨0, 1, 0⟩ (⟨0, 1, 0⟩ : Vec3) = 1 := by
    norm_num [Vec3.dot]
  rw [h5, Real.sqrt_one]
  ext <;> norm_num

theorem sweepW : (extrinsic_smooth pureRng meshW (fieldW, 0)).1.getD 0 0 =
    (⟨0, 1, 0⟩ : Vec3) := by
  have h0 : (extrinsic_smooth pureRng meshW (fieldW, 0)).1 =
      (fieldW.set 0 (updateVertex meshW fieldW 0)).set 1
        (updateVertex meshW (fieldW.set 0 (updateVertex meshW fieldW 0)) 1) := rfl
  rw [h0, getD_set_ne _ 1 _ 0 0 (by omega),
    getD_set_self _ 0 _ 0 (by rw [show fieldW.length = 2 from rfl]; omega)]
  exact updateW

/-- Witness for the amended C2 theorem: at the concrete mesh `meshW`, the
visited vertex 0 has a neighbor, a unit normal and a nonzero swept result,
and its swept direction is unit length and orthogonal to its normal. -/
theorem C2_sweep_output_unit_tangent_witness :
    (0 ∈ (pureRng.shuffleNats ((fieldW, 0) : List Vec3 × ℕ).2
        (List.range meshW.vertices.length)).1 ∧
      meshW.adjacency_face.getD 0 [] ≠ [] ∧
      dot (meshW.normals.getD 0 0) (meshW.normals.getD 0 0) = 1 ∧
      (extrinsic_smooth pureRng meshW (fieldW, 0)).1.getD 0 0 ≠ 0) ∧
    (dot ((extrinsic_smooth pureRng meshW (fieldW, 0)).1.getD 0 0)
        ((extrinsic_smooth pureRng meshW (fieldW, 0)).1.getD 0 0) = 1 ∧
      dot ((extrinsic_smooth pureRng meshW (fieldW, 0)).1.getD 0 0)
        (meshW.normals.getD 0 0) = 0) := by
  have hi : 0 ∈ (pureRng.shuffleNats ((fieldW, 0) : List Vec3 × ℕ).2
      (List.range meshW.vertices.length)).1 := by
    rw [show (pureRng.shuffleNats ((fieldW, 0) : List Vec3 × ℕ).2
        (List.range meshW.vertices.length)).1 = [0, 1] from rfl]
    simp
  have hadj : meshW.adjacency_face.getD 0 [] ≠ [] := by
    rw [show meshW.adjacency_face.getD 0 [] = [(1, 0)] from rfl]
    simp
  have hn : dot (meshW.normals.getD 0 0) (meshW.normals.getD 0 0) = 1 := by
    rw [show meshW.normals.getD 0 0 = (⟨0, 0, 1⟩ : Vec3) from rfl]
    norm_num [Vec3.dot]
  have hnz : (extrinsic_smooth pureRng meshW (fieldW, 0)).1.getD 0 0 ≠ 0 := by
    rw [sweepW]
    intro h
    have := congrArg Vec3.y h
    norm_num at this
  exact ⟨⟨hi, hadj, hn, hnz⟩,
    C2_sweep_output_unit_tangent pureRng meshW (fieldW, 0) 0 hi hadj hn hnz⟩

/-! ### C3: the full solve is deterministic -/

/-- Two generator implementations are bisimilar when a relation on their
states is established by equal seeding and preserved by both operations
while producing equal observable outputs.  Two runs of the solver use the
same generator algorithm (`SmallRng`), so their generators are bisimilar
(with possibly different state representations). -/
def IsBisim {σ τ : Type} (R : RngImpl σ) (S : RngImpl τ) (rel : σ → τ → Prop) :
    Prop :=
  (∀ s, rel (R.seedFromU64 s) (S.seedFromU64 s)) ∧
  (∀ a b, rel a b →
    (R.genFloat a).1 = (S.genFloat b).1 ∧ rel (R.genFloat a).2 (S.genFloat b).2) ∧
  (∀ a b l, rel a b →
    (R.shuffleNats a l).1 = (S.shuffleNats b l).1 ∧
      rel (R.shuffleNats a l).2 (S.shuffleNats b l).2)

theorem initField_bisim {σ τ : Type} {R : RngImpl σ} {S : RngImpl τ}
    {rel : σ → τ → Prop} (h : IsBisim R S rel) (mesh : ProcessMesh) :
    ∀ a b, rel a b →
      (initField R mesh a).1 = (initField S mesh b).1 ∧
        rel (initField R mesh a).2 (initField S mesh b).2 := by
  have key : ∀ (l : List ℕ) (acc : List Vec3) (a : σ) (b : τ), rel a b →
      (l.foldl
        (fun acc2 i =>
          let g := R.genFloat acc2.2
          (acc2.1 ++ [initVertex (mesh.normals.getD i 0) (g.1 * tau)], g.2))
        (acc, a)).1 =
        (l.foldl
          (fun acc2 i =>
            let g := S.genFloat acc2.2
            (acc2.1 ++ [initVertex (mesh.normals.getD i 0) (g.1 * tau)], g.2))
          (acc, b)).1 ∧
        rel
          (l.foldl
            (fun acc2 i =>
              let g := R.genFloat acc2.2
              (acc2.1 ++ [initVertex (mesh.normals.getD i 0) (g.1 * tau)], g.2))
            (acc, a)).2
          (l.foldl
            (fun acc2 i =>
              let g := S.genFloat acc2.2
              (acc2.1 ++ [initVertex (mesh.normals.getD i 0) (g.1 * tau)], g.2))
            (acc, b)).2 := by
    intro l
    induction l with
    | nil => intro acc a b hab; exact ⟨rfl, hab⟩
    | cons i rest ih =>
      intro acc a b hab
      rcases h.2.1 a b hab with ⟨hg, hrel⟩
      simp only [List.foldl_cons]
      rw [hg]
      exact ih _ _ _ hrel
  intro a b hab
  exact key _ [] a b hab

theorem extrinsic_smooth_bisim {σ τ : Type} {R : RngImpl σ} {S : RngImpl τ}
    {rel : σ → τ → Prop} (h : IsBisim R S rel) (mesh : ProcessMesh)
    (f : List Vec3) (a : σ) (b : τ) (hab : rel a b) :
    (extrinsic_smooth R mesh (f, a)).1 = (extrinsic_smooth S mesh (f, b)).1 ∧
      rel (extrinsic_smooth R mesh (f, a)).2 (extrinsic_smooth S mesh (f, b)).2 := by
  rcases h.2.2 a b (List.range mesh.vertices.length) hab with ⟨hsh, hrel⟩
  constructor
  · show sweepOnce mesh (R.shuffleNats a (List.range mesh.vertices.length)).1 f =
      sweepOnce mesh (S.shuffleNats b (List.range mesh.vertices.length)).1 f
    rw [hsh]
  · exact hrel

theorem sweepIter_bisim {σ τ : Type} {R : RngImpl σ} {S : RngImpl τ}
    {rel : σ → τ → Prop} (h : IsBisim R S rel) (mesh : ProcessMesh) (its : ℕ) :
    ∀ (f : List Vec3) (a : σ) (b : τ), rel a b →
      (sweepIter R mesh its (f, a)).1 = (sweepIter S mesh its (f, b)).1 ∧
        rel (sweepIter R mesh its (f, a)).2 (sweepIter S mesh its (f, b)).2 := by
  induction its with
  | zero => intro f a b hab; exact ⟨rfl, hab⟩
  | succ n ih =>
    intro f a b hab
    have hR : sweepIter R mesh (n + 1) (f, a) =
        sweepIter R mesh n (extrinsic_smooth R mesh (f, a)) := by
      unfold sweepIter
      rw [Function.iterate_succ_apply]
    have hS : sweepIter S mesh (n + 1) (f, b) =
        sweepIter S mesh n (extrinsic_smooth S mesh (f, b)) := by
      unfold sweepIter
      rw [Function.iterate_succ_apply]
    rcases extrinsic_smooth_bisim h mesh f a b hab with ⟨hf, hrel⟩
    have step := ih (extrinsic_smooth R mesh (f, a)).1
      (extrinsic_smooth R mesh (f, a)).2 (extrinsic_smooth S mesh (f, b)).2 hrel
    have hpair : ((extrinsic_smooth R mesh (f, a)).1,
        (extrinsic_smooth S mesh (f, b)).2) = extrinsic_smooth S mesh (f, b) := by
      rw [hf]
    rw [hpair] at step
    rw [hR, hS]
    exact step

/-- C3: with the generator seeded from the fixed constant, the full
hierarchical solve is a function of the hierarchy and the iteration count
alone: any two runs whose generators follow the same pseudo-random
algorithm (bisimilar implementations) produce identical field output. -/
theorem C3_deterministic_solve {σ τ : Type} (R : RngImpl σ) (S : RngImpl τ)
    (rel : σ → τ → Prop) (h : IsBisim R S rel) (levels : List HierarchyLevel)
    (its : ℕ) :
    hierarchical_smoothing R levels its = hierarchical_smoothing S levels its := by
  suffices H : ∀ (n : ℕ) (lv : List HierarchyLevel), lv.length = n →
      hierarchical_smoothing R lv its = hierarchical_smoothing S lv its by
    exact H levels.length levels rfl
  intro n
  induction n using Nat.strong_induction_on with
  | _ n ih =>
    intro levels hlen
    rw [hierarchical_smoothing_eq R, hierarchical_smoothing_eq S]
    unfold levelEntry
    by_cases hl : 1 < levels.length
    · rw [dif_pos hl, dif_pos hl]
      have hdrop : levels.dropLast.length < n := by
        rw [List.length_dropLast, hlen] at *
        omega
      have hcoarse := ih levels.dropLast.length hdrop levels.dropLast rfl
      rw [hcoarse]
      exact (sweepIter_bisim h _ its _ _ _ (h.1 0)).1
    · rw [dif_neg hl, dif_neg hl]
      rcases initField_bisim h (levels.getLast?.getD ⟨emptyMesh, []⟩).mesh
        (R.seedFromU64 0) (S.seedFromU64 0) (h.1 0) with ⟨hf, hrel⟩
      have step := sweepIter_bisim h (levels.getLast?.getD ⟨emptyMesh, []⟩).mesh its
        (initField R (levels.getLast?.getD ⟨emptyMesh, []⟩).mesh (R.seedFromU64 0)).1
        (initField R (levels.getLast?.getD ⟨emptyMesh, []⟩).mesh (R.seedFromU64 0)).2
        (initField S (levels.getLast?.getD ⟨emptyMesh, []⟩).mesh (S.seedFromU64 0)).2
        hrel
      have hpair :
          ((initField R (levels.getLast?.getD ⟨emptyMesh, []⟩).mesh
              (R.seedFromU64 0)).1,
            (initField S (levels.getLast?.getD ⟨emptyMesh, []⟩).mesh
              (S.seedFromU64 0)).2) =
          initField S (levels.getLast?.getD ⟨emptyMesh, []⟩).mesh
            (S.seedFromU64 0) := by
        rw [hf]
      rw [hpair] at step
      exact step.1

/-- Witness for C3: the trivial generator is bisimilar to itself via
equality of states, and the solve on the empty hierarchy agrees with
itself. -/
theorem C3_deterministic_solve_witness :
    IsBisim pureRng pureRng Eq ∧
      hierarchical_smoothing pureRng [] 0 = hierarchical_smoothing pureRng [] 0 := by
  have hb : IsBisim pureRng pureRng Eq := by
    refine ⟨fun s => rfl, ?_, ?_⟩
    · intro a b hab
      subst hab
      exact ⟨rfl, rfl⟩
    · intro a b l hab
      subst hab
      exact ⟨rfl, rfl⟩
  exact ⟨hb, C3_deterministic_solve pureRng pureRng Eq hb [] 0⟩

/-! ### C10: the finest level holds the input mesh unchanged -/

theorem build_shape (fuel : ℕ) (mesh : ProcessMesh) :
    build fuel mesh =
      if (ranking mesh).isEmpty then some [⟨mesh, []⟩]
      else
        match fuel with
        | 0 => none
        | f + 1 =>
          (build f (coarsen mesh).1).map
            (fun up => up ++ [⟨mesh, (coarsen mesh).2⟩]) := by
  rw [build.eq_def]

theorem build_last_mesh : ∀ (fuel : ℕ) (mesh : ProcessMesh)
    (L : List HierarchyLevel), build fuel mesh = some L →
    L ≠ [] ∧ ∃ lv, L.getLast? = some lv ∧ lv.mesh = mesh := by
  intro fuel
  induction fuel with
  | zero =>
    intro mesh L h
    rw [build_shape] at h
    by_cases hemp : (ranking mesh).isEmpty
    · rw [if_pos hemp] at h
      obtain rfl : [(⟨mesh, []⟩ : HierarchyLevel)] = L := Option.some.inj h
      exact ⟨by simp, ⟨⟨mesh, []⟩, by simp, rfl⟩⟩
    · rw [if_neg hemp] at h
      simp at h
  | succ f ih =>
    intro mesh L h
    rw [build_shape] at h
    by_cases hemp : (ranking mesh).isEmpty
    · rw [if_pos hemp] at h
      obtain rfl : [(⟨mesh, []⟩ : HierarchyLevel)] = L := Option.some.inj h
      exact ⟨by simp, ⟨⟨mesh, []⟩, by simp, rfl⟩⟩
    · rw [if_neg hemp] at h
      simp only [Option.map_eq_some'] at h
      obtain ⟨L2, hL2, rfl⟩ := h
      refine ⟨by simp, ⟨⟨mesh, (coarsen mesh).2⟩, ?_, rfl⟩⟩
      rw [List.getLast?_concat]

/-- C10: for every input mesh for which the builder returns, the level list
is non-empty and its last element's mesh is the input mesh with vertices,
normals, triangles, adjacency and dual areas unchanged (the builder moves
the input, unmodified, into the finest level). -/
theorem C10_finest_level_is_input (fuel : ℕ) (mesh : ProcessMesh)
    (L : List HierarchyLevel) (h : build fuel mesh = some L) :
    L ≠ [] ∧ ∃ lv, L.getLast? = some lv ∧
      lv.mesh.vertices = mesh.vertices ∧ lv.mesh.normals = mesh.normals ∧
      lv.mesh.tris = mesh.tris ∧
      lv.mesh.adjacency_face = mesh.adjacency_face ∧
      lv.mesh.dual_area = mesh.dual_area := by
  rcases build_last_mesh fuel mesh L h with ⟨hne, lv, hlast, hmesh⟩
  exact ⟨hne, lv, hlast, by rw [hmesh], by rw [hmesh], by rw [hmesh],
    by rw [hmesh], by rw [hmesh]⟩

/-- Witness for C10 on the empty mesh (zero edges, terminal immediately). -/
theorem C10_finest_level_is_input_witness :
    build 0 emptyMesh = some [⟨emptyMesh, []⟩] ∧
      ([(⟨emptyMesh, []⟩ : HierarchyLevel)] ≠ [] ∧
        ∃ lv, ([(⟨emptyMesh, []⟩ : HierarchyLevel)]).getLast? = some lv ∧
          lv.mesh.vertices = emptyMesh.vertices ∧
          lv.mesh.normals = emptyMesh.normals ∧
          lv.mesh.tris = emptyMesh.tris ∧
          lv.mesh.adjacency_face = emptyMesh.adjacency_face ∧
          lv.mesh.dual_area = emptyMesh.dual_area) := by
  have hb : build 0 emptyMesh = some [⟨emptyMesh, []⟩] := rfl
  exact ⟨hb, C10_finest_level_is_input 0 emptyMesh _ hb⟩

/-! ### Specification-side description of the greedy coarsening scan -/

/-- Index of the first selected pair containing `v`, if any. -/
def pairIdx? : List (ℕ × ℕ) → ℕ → Option ℕ
  | [], _ => none
  | p :: rest, v =>
    if v = p.1 ∨ v = p.2 then some 0 else (pairIdx? rest v).map (· + 1)

def upValue (sel : List (ℕ × ℕ)) (v : ℕ) : ℕ := (pairIdx? sel v).getD usizeMax

/-- The up-mapping induced by a selection of merged pairs, before the
singleton pass: each claimed vertex maps to its pair's index, each
unclaimed vertex to the sentinel. -/
def upOfSel (n : ℕ) (sel : List (ℕ × ℕ)) : List ℕ :=
  (List.range n).map (upValue sel)

def endpoints (sel : List (ℕ × ℕ)) : List ℕ := sel.flatMap (fun p => [p.1, p.2])

/-- The greedy selection as the specification words it: scan the sorted
edges; merge an edge exactly when neither endpoint has been claimed by an
earlier edge, claiming both endpoints. -/
def specSelect : List ℕ → List (ℕ × ℕ × ℝ) → List (ℕ × ℕ)
  | _, [] => []
  | claimed, e :: es =>
    if e.1 ∈ claimed ∨ e.2.1 ∈ claimed then specSelect claimed es
    else (e.1, e.2.1) :: specSelect (e.1 :: e.2.1 :: claimed) es

/-- Coarse position of a merged pair: the dual-area-weighted average. -/
noncomputable def mergedPos (mesh : ProcessMesh) (p : ℕ × ℕ) : Vec3 :=
  divScalar
    (mesh.dual_area.getD p.1 0 • mesh.vertices.getD p.1 0 +
      mesh.dual_area.getD p.2 0 • mesh.vertices.getD p.2 0)
    (mesh.dual_area.getD p.1 0 + mesh.dual_area.getD p.2 0)

/-- Coarse normal of a merged pair as the source computes it. -/
noncomputable def mergedNrm (mesh : ProcessMesh) (p : ℕ × ℕ) : Vec3 :=
  normalize
    (mesh.dual_area.getD p.1 0 • mesh.normals.getD p.1 0 +
      mesh.dual_area.getD p.2 0 • mesh.normals.getD p.2 0)

noncomputable def mergedArea (mesh : ProcessMesh) (p : ℕ × ℕ) : ℝ :=
  mesh.dual_area.getD p.1 0 + mesh.dual_area.getD p.2 0

/-- Scan state induced by a selection, before the singleton pass. -/
noncomputable def stateOf (mesh : ProcessMesh) (sel : List (ℕ × ℕ)) : MergeState :=
  ⟨sel.map (mergedPos mesh), sel.map (mergedNrm mesh), sel.map (mergedArea mesh),
    upOfSel mesh.vertices.length sel⟩

def pdisj (p q : ℕ × ℕ) : Prop :=
  p.1 ≠ q.1 ∧ p.1 ≠ q.2 ∧ p.2 ≠ q.1 ∧ p.2 ≠ q.2

/-- A well-formed selection: endpoints in range, pairwise disjoint pairs. -/
def SelOK (n : ℕ) (sel : List (ℕ × ℕ)) : Prop :=
  (∀ p ∈ sel, p.1 < n ∧ p.2 < n) ∧ sel.Pairwise pdisj

theorem pairIdx?_lt {sel : List (ℕ × ℕ)} {v k : ℕ}
    (h : pairIdx? sel v = some k) : k < sel.length := by
  induction sel generalizing k with
  | nil => cases h
  | cons p rest ih =>
    unfold pairIdx? at h
    by_cases hm : v = p.1 ∨ v = p.2
    · rw [if_pos hm] at h
      obtain rfl : 0 = k := Option.some.inj h
      simp
    · rw [if_neg hm] at h
      rcases Option.map_eq_some'.mp h with ⟨k2, hk2, rfl⟩
      have := ih hk2
      simp
      omega

theorem mem_endpoints {v : ℕ} {sel : List (ℕ × ℕ)} :
    v ∈ endpoints sel ↔ ∃ p ∈ sel, v = p.1 ∨ v = p.2 := by
  unfold endpoints
  simp [List.mem_flatMap]

theorem pairIdx?_eq_none_iff {sel : List (ℕ × ℕ)} {v : ℕ} :
    pairIdx? sel v = none ↔ v ∉ endpoints sel := by
  induction sel with
  | nil =>
    simp [pairIdx?, endpoints]
  | cons p rest ih =>
    unfold pairIdx?
    by_cases hm : v = p.1 ∨ v = p.2
    · rw [if_pos hm]
      constructor
      · intro h
        cases h
      · intro h
        exfalso
        exact h (mem_endpoints.mpr ⟨p, List.mem_cons_self p rest, hm⟩)
    · rw [if_neg hm]
      rw [Option.map_eq_none', ih]
      constructor
      · intro h hmem
        rcases mem_endpoints.mp hmem with ⟨q, hq, hv⟩
        rcases List.mem_cons.mp hq with rfl | hq2
        · exact hm hv
        · exact h (mem_endpoints.mpr ⟨q, hq2, hv⟩)
      · intro h hmem
        rcases mem_endpoints.mp hmem with ⟨q, hq, hv⟩
        exact h (mem_endpoints.mpr ⟨q, List.mem_cons_of_mem p hq, hv⟩)

theorem pairIdx?_append (sel : List (ℕ × ℕ)) (q : ℕ × ℕ) (v : ℕ) :
    pairIdx? (sel ++ [q]) v =
      match pairIdx? sel v with
      | some k => some k
      | none => if v = q.1 ∨ v = q.2 then some sel.length else none := by
  induction sel with
  | nil =>
    show pairIdx? [q] v = _
    unfold pairIdx?
    by_cases hm : v = q.1 ∨ v = q.2
    · rw [if_pos hm, if_pos hm]
      rfl
    · rw [if_neg hm, if_neg hm]
      rfl
  | cons p rest ih =>
    show pairIdx? (p :: (rest ++ [q])) v = _
    unfold pairIdx?
    by_cases hm : v = p.1 ∨ v = p.2
    · rw [if_pos hm, if_pos hm]
    · rw [if_neg hm, if_neg hm, ih]
      cases hrest : pairIdx? rest v with
      | some k => rfl
      | none =>
        by_cases hq : v = q.1 ∨ v = q.2
        · rw [if_pos hq, if_pos hq]
          rfl
        · rw [if_neg hq, if_neg hq]
          rfl

theorem upOfSel_length (n : ℕ) (sel : List (ℕ × ℕ)) :
    (upOfSel n sel).length = n := by
  unfold upOfSel
  simp

theorem upOfSel_getD {n v : ℕ} (sel : List (ℕ × ℕ)) (hv : v < n) :
    (upOfSel n sel).getD v usizeMax = upValue sel v := by
  unfold upOfSel
  rw [List.getD_eq_getElem?_getD, List.getElem?_map, List.getElem?_range hv]
  rfl

theorem sel_length_le {n : ℕ} {sel : List (ℕ × ℕ)} (hok : SelOK n sel) :
    sel.length ≤ n := by
  have hnd : (sel.map Prod.fst).Nodup := by
    refine List.Pairwise.map Prod.fst ?_ hok.2
    intro a b hab
    exact hab.1
  have hsub : sel.map Prod.fst ⊆ List.range n := by
    intro v hv
    rcases List.mem_map.mp hv with ⟨p, hp, rfl⟩
    exact List.mem_range.mpr (hok.1 p hp).1
  have := (List.subperm_of_subset hnd hsub).length_le
  simpa using this

theorem upValue_ne_max_iff {n : ℕ} {sel : List (ℕ × ℕ)} {v : ℕ}
    (hmax : n < usizeMax) (hok : SelOK n sel) :
    upValue sel v ≠ usizeMax ↔ v ∈ endpoints sel := by
  unfold upValue
  cases hp : pairIdx? sel v with
  | none =>
    simp only [Option.getD_none]
    constructor
    · intro h
      exact absurd rfl h
    · intro h _
      exact pairIdx?_eq_none_iff.mp hp h
  | some k =>
    simp only [Option.getD_some]
    have hk : k < sel.length := pairIdx?_lt hp
    have hkn : k < usizeMax := lt_of_lt_of_le hk (le_trans (sel_length_le hok) (le_of_lt hmax))
    constructor
    · intro _
      by_contra hmem
      rw [← pairIdx?_eq_none_iff] at hmem
      rw [hmem] at hp
      cases hp
    · intro _
      omega

theorem specSelect_congr (c1 c2 : List ℕ) (h : ∀ v, v ∈ c1 ↔ v ∈ c2) :
    ∀ es, specSelect c1 es = specSelect c2 es := by
  intro es
  induction es generalizing c1 c2 with
  | nil => rfl
  | cons e rest ih =>
    unfold specSelect
    by_cases hm : e.1 ∈ c1 ∨ e.2.1 ∈ c1
    · have hm2 : e.1 ∈ c2 ∨ e.2.1 ∈ c2 := by
        rcases hm with h1 | h1
        · exact Or.inl ((h e.1).mp h1)
        · exact Or.inr ((h e.2.1).mp h1)
      rw [if_pos hm, if_pos hm2]
      exact ih c1 c2 h
    · have hm2 : ¬(e.1 ∈ c2 ∨ e.2.1 ∈ c2) := by
        intro hc
        rcases hc with h1 | h1
        · exact hm (Or.inl ((h e.1).mpr h1))
        · exact hm (Or.inr ((h e.2.1).mpr h1))
      rw [if_neg hm, if_neg hm2]
      congr 1
      refine ih _ _ ?_
      intro v
      simp only [List.mem_cons]
      rw [h v]

theorem scanStep_of_claimed (mesh : ProcessMesh) (st : MergeState) (e : ℕ × ℕ × ℝ)
    (h : st.up_mapping.getD e.1 usizeMax ≠ usizeMax ∨
      st.up_mapping.getD e.2.1 usizeMax ≠ usizeMax) :
    scanStep mesh st e = st := by
  unfold scanStep
  rw [if_pos h]

theorem scanStep_of_unclaimed (mesh : ProcessMesh) (st : MergeState) (e : ℕ × ℕ × ℝ)
    (h : ¬(st.up_mapping.getD e.1 usizeMax ≠ usizeMax ∨
      st.up_mapping.getD e.2.1 usizeMax ≠ usizeMax)) :
    scanStep mesh st e =
      { vertices := st.vertices ++
          [divScalar
            (mesh.dual_area.getD e.1 0 • mesh.vertices.getD e.1 0 +
              mesh.dual_area.getD e.2.1 0 • mesh.vertices.getD e.2.1 0)
            (mesh.dual_area.getD e.1 0 + mesh.dual_area.getD e.2.1 0)]
        normals := st.normals ++
          [normalize
            (mesh.dual_area.getD e.1 0 • mesh.normals.getD e.1 0 +
              mesh.dual_area.getD e.2.1 0 • mesh.normals.getD e.2.1 0)]
        dual_area := st.dual_area ++
          [mesh.dual_area.getD e.1 0 + mesh.dual_area.getD e.2.1 0]
        up_mapping :=
          (st.up_mapping.set e.1 st.vertices.length).set e.2.1
            st.vertices.length } := by
  unfold scanStep
  rw [if_neg h]

theorem upOfSel_set_pair (n : ℕ) (sel : List (ℕ × ℕ)) (i j : ℕ)
    (hi : i < n) (hj : j < n)
    (hni : i ∉ endpoints sel) (hnj : j ∉ endpoints sel) :
    ((upOfSel n sel).set i sel.length).set j sel.length =
      upOfSel n (sel ++ [(i, j)]) := by
  have hlen : (((upOfSel n sel).set i sel.length).set j sel.length).length = n := by
    simp [upOfSel_length]
  apply List.ext_getElem?
  intro k
  by_cases hk : k < n
  · have hrhs : (upOfSel n (sel ++ [(i, j)]))[k]? = some (upValue (sel ++ [(i, j)]) k) := by
      unfold upOfSel
      rw [List.getElem?_map, List.getElem?_range hk]
      rfl
    rw [hrhs]
    by_cases hkj : k = j
    · subst hkj
      rw [List.getElem?_set_self (by rw [List.length_set, upOfSel_length]; omega)]
      have hval : upValue (sel ++ [(i, k)]) k = sel.length := by
        unfold upValue
        rw [pairIdx?_append, pairIdx?_eq_none_iff.mpr hnj]
        simp
      rw [hval]
    · rw [List.getElem?_set_ne (fun hh => hkj hh.symm)]
      by_cases hki : k = i
      · subst hki
        rw [List.getElem?_set_self (by rw [upOfSel_length]; omega)]
        have hval : upValue (sel ++ [(k, j)]) k = sel.length := by
          unfold upValue
          rw [pairIdx?_append, pairIdx?_eq_none_iff.mpr hni]
          simp
        rw [hval]
      · rw [List.getElem?_set_ne (fun hh => hki hh.symm)]
        have hlhs : (upOfSel n sel)[k]? = some (upValue sel k) := by
          unfold upOfSel
          rw [List.getElem?_map, List.getElem?_range hk]
          rfl
        rw [hlhs]
        have hval : upValue (sel ++ [(i, j)]) k = upValue sel k := by
          unfold upValue
          rw [pairIdx?_append]
          cases hp : pairIdx? sel k with
          | some k2 => rfl
          | none =>
            simp [hki, hkj]
        rw [hval]
  · have h1 : (((upOfSel n sel).set i sel.length).set j sel.length)[k]? = none := by
      apply List.getElem?_eq_none
      rw [hlen]
      omega
    have h2 : (upOfSel n (sel ++ [(i, j)]))[k]? = none := by
      apply List.getElem?_eq_none
      rw [upOfSel_length]
      omega
    rw [h1, h2]

theorem endpoints_append_pair (sel : List (ℕ × ℕ)) (p : ℕ × ℕ) :
    endpoints (sel ++ [p]) = endpoints sel ++ [p.1, p.2] := by
  unfold endpoints
  rw [List.flatMap_append]
  rfl

theorem scanFold_spec (mesh : ProcessMesh) (hmax : mesh.vertices.length < usizeMax) :
    ∀ (es : List (ℕ × ℕ × ℝ)) (sel : List (ℕ × ℕ)),
      (∀ e ∈ es, e.1 < mesh.vertices.length ∧ e.2.1 < mesh.vertices.length) →
      SelOK mesh.vertices.length sel →
      es.foldl (scanStep mesh) (stateOf mesh sel) =
          stateOf mesh (sel ++ specSelect (endpoints sel) es) ∧
        SelOK mesh.vertices.length (sel ++ specSelect (endpoints sel) es) := by
  intro es
  induction es with
  | nil =>
    intro sel hes hok
    constructor
    · show stateOf mesh sel = stateOf mesh (sel ++ specSelect (endpoints sel) [])
      rw [show specSelect (endpoints sel) [] = [] from rfl, List.append_nil]
    · rw [show specSelect (endpoints sel) [] = [] from rfl, List.append_nil]
      exact hok
  | cons e rest ih =>
    intro sel hes hok
    have he := hes e (List.mem_cons_self e rest)
    have hrest : ∀ x ∈ rest, x.1 < mesh.vertices.length ∧
        x.2.1 < mesh.vertices.length :=
      fun x hx => hes x (List.mem_cons_of_mem e hx)
    by_cases hcl : e.1 ∈ endpoints sel ∨ e.2.1 ∈ endpoints sel
    · have hcond : (stateOf mesh sel).up_mapping.getD e.1 usizeMax ≠ usizeMax ∨
          (stateOf mesh sel).up_mapping.getD e.2.1 usizeMax ≠ usizeMax := by
        rcases hcl with h1 | h1
        · left
          rw [show (stateOf mesh sel).up_mapping =
              upOfSel mesh.vertices.length sel from rfl, upOfSel_getD sel he.1]
          exact (upValue_ne_max_iff hmax hok).mpr h1
        · right
          rw [show (stateOf mesh sel).up_mapping =
              upOfSel mesh.vertices.length sel from rfl, upOfSel_getD sel he.2]
          exact (upValue_ne_max_iff hmax hok).mpr h1
      have hspec : specSelect (endpoints sel) (e :: rest) =
          specSelect (endpoints sel) rest := by
        show (if e.1 ∈ endpoints sel ∨ e.2.1 ∈ endpoints sel then
            specSelect (endpoints sel) rest
          else (e.1, e.2.1) :: specSelect (e.1 :: e.2.1 :: endpoints sel) rest) =
          specSelect (endpoints sel) rest
        rw [if_pos hcl]
      rw [List.foldl_cons, scanStep_of_claimed mesh _ e hcond, hspec]
      exact ih sel hrest hok
    · push_neg at hcl
      obtain ⟨hni, hnj⟩ := hcl
      have hcond : ¬((stateOf mesh sel).up_mapping.getD e.1 usizeMax ≠ usizeMax ∨
          (stateOf mesh sel).up_mapping.getD e.2.1 usizeMax ≠ usizeMax) := by
        push_neg
        constructor
        · rw [show (stateOf mesh sel).up_mapping =
              upOfSel mesh.vertices.length sel from rfl, upOfSel_getD sel he.1]
          by_contra hne
          exact hni ((upValue_ne_max_iff hmax hok).mp hne)
        · rw [show (stateOf mesh sel).up_mapping =
              upOfSel mesh.vertices.length sel from rfl, upOfSel_getD sel he.2]
          by_contra hne
          exact hnj ((upValue_ne_max_iff hmax hok).mp hne)
      have hstate : scanStep mesh (stateOf mesh sel) e =
          stateOf mesh (sel ++ [(e.1, e.2.1)]) := by
        rw [scanStep_of_unclaimed mesh _ e hcond]
        show MergeState.mk _ _ _ _ = _
        unfold stateOf
        have hv : (sel.map (mergedPos mesh)).length = sel.length := by simp
        congr 1
        · rw [List.map_append]
          rfl
        · rw [List.map_append]
          rfl
        · rw [List.map_append]
          rfl
        · show ((upOfSel mesh.vertices.length sel).set e.1
              (sel.map (mergedPos mesh)).length).set e.2.1
              (sel.map (mergedPos mesh)).length =
            upOfSel mesh.vertices.length (sel ++ [(e.1, e.2.1)])
          rw [hv]
          exact upOfSel_set_pair mesh.vertices.length sel e.1 e.2.1 he.1 he.2 hni hnj
      have hsok : SelOK mesh.vertices.length (sel ++ [(e.1, e.2.1)]) := by
        constructor
        · intro p hp
          rcases List.mem_append.mp hp with h1 | h1
          · exact hok.1 p h1
          · rw [List.mem_singleton.mp h1]
            exact he
        · rw [List.pairwise_append]
          refine ⟨hok.2, List.pairwise_singleton pdisj _, ?_⟩
          intro p hp q hq
          rw [List.mem_singleton.mp hq]
          have h1 : e.1 ≠ p.1 ∧ e.1 ≠ p.2 := by
            constructor
            · intro hh
              exact hni (mem_endpoints.mpr ⟨p, hp, Or.inl hh⟩)
            · intro hh
              exact hni (mem_endpoints.mpr ⟨p, hp, Or.inr hh⟩)
          have h2 : e.2.1 ≠ p.1 ∧ e.2.1 ≠ p.2 := by
            constructor
            · intro hh
              exact hnj (mem_endpoints.mpr ⟨p, hp, Or.inl hh⟩)
            · intro hh
              exact hnj (mem_endpoints.mpr ⟨p, hp, Or.inr hh⟩)
          exact ⟨fun hh => h1.1 hh.symm, fun hh => h2.1 hh.symm,
            fun hh => h1.2 hh.symm, fun hh => h2.2 hh.symm⟩
      have hspec : specSelect (endpoints sel) (e :: rest) =
          (e.1, e.2.1) :: specSelect (e.1 :: e.2.1 :: endpoints sel) rest := by
        show (if e.1 ∈ endpoints sel ∨ e.2.1 ∈ endpoints sel then
            specSelect (endpoints sel) rest
          else (e.1, e.2.1) :: specSelect (e.1 :: e.2.1 :: endpoints sel) rest) = _
        rw [if_neg (fun hc => hc.elim hni hnj)]
      have hcongr : specSelect (e.1 :: e.2.1 :: endpoints sel) rest =
          specSelect (endpoints (sel ++ [(e.1, e.2.1)])) rest := by
        apply specSelect_congr
        intro v
        rw [endpoints_append_pair]
        simp only [List.mem_cons, List.mem_append, List.not_mem_nil, or_false]
        tauto
      rw [List.foldl_cons, hstate, hspec, hcongr]
      rcases ih (sel ++ [(e.1, e.2.1)]) hrest hsok with ⟨hst, hsok2⟩
      rw [hst]
      constructor
      · rw [List.append_assoc]
        rfl
      · rw [List.append_assoc] at hsok2
        exact hsok2

/-- Unclaimed vertices below `k`, in increasing order. -/
def singlesOf (k : ℕ) (sel : List (ℕ × ℕ)) : List ℕ :=
  (List.range k).filter (fun v => (pairIdx? sel v).isNone)

/-- Final up-mapping value after the singleton pass. -/
def upFullValue (sel : List (ℕ × ℕ)) (v : ℕ) : ℕ :=
  match pairIdx? sel v with
  | some j => j
  | none => sel.length + (List.range v).countP (fun w => (pairIdx? sel w).isNone)

def upFull (n : ℕ) (sel : List (ℕ × ℕ)) : List ℕ :=
  (List.range n).map (upFullValue sel)

/-- Final merge state after the singleton pass, as the specification
describes it: merged coarse vertices first, then the unclaimed vertices in
index order carrying their original attributes. -/
noncomputable def stateFull (mesh : ProcessMesh) (sel : List (ℕ × ℕ)) : MergeState :=
  ⟨sel.map (mergedPos mesh) ++
      (singlesOf mesh.vertices.length sel).map (fun v => mesh.vertices.getD v 0),
    sel.map (mergedNrm mesh) ++
      (singlesOf mesh.vertices.length sel).map (fun v => mesh.normals.getD v 0),
    sel.map (mergedArea mesh) ++
      (singlesOf mesh.vertices.length sel).map (fun v => mesh.dual_area.getD v 0),
    upFull mesh.vertices.length sel⟩

/-- Intermediate up-mapping value after the singleton pass has processed
vertices below `k`. -/
def upPartialValue (k : ℕ) (sel : List (ℕ × ℕ)) (v : ℕ) : ℕ :=
  match pairIdx? sel v with
  | some j => j
  | none =>
    if v < k then
      sel.length + (List.range v).countP (fun w => (pairIdx? sel w).isNone)
    else usizeMax

def upPartial (n k : ℕ) (sel : List (ℕ × ℕ)) : List ℕ :=
  (List.range n).map (upPartialValue k sel)

noncomputable def statePartial (mesh : ProcessMesh) (sel : List (ℕ × ℕ)) (k : ℕ) :
    MergeState :=
  ⟨sel.map (mergedPos mesh) ++
      (singlesOf k sel).map (fun v => mesh.vertices.getD v 0),
    sel.map (mergedNrm mesh) ++
      (singlesOf k sel).map (fun v => mesh.normals.getD v 0),
    sel.map (mergedArea mesh) ++
      (singlesOf k sel).map (fun v => mesh.dual_area.getD v 0),
    upPartial mesh.vertices.length k sel⟩

theorem statePartial_zero (mesh : ProcessMesh) (sel : List (ℕ × ℕ)) :
    statePartial mesh sel 0 = stateOf mesh sel := by
  unfold statePartial stateOf upPartial upOfSel
  have hs : singlesOf 0 sel = [] := rfl
  rw [hs]
  have hup : ∀ v, upPartialValue 0 sel v = upValue sel v := by
    intro v
    unfold upPartialValue upValue
    cases hp : pairIdx? sel v with
    | some j => rfl
    | none => simp
  simp [hup]

theorem statePartial_full (mesh : ProcessMesh) (sel : List (ℕ × ℕ)) :
    statePartial mesh sel mesh.vertices.length = stateFull mesh sel := by
  unfold statePartial stateFull upPartial upFull
  have hup : ∀ v ∈ List.range mesh.vertices.length,
      upPartialValue mesh.vertices.length sel v = upFullValue sel v := by
    intro v hv
    have hvn : v < mesh.vertices.length := List.mem_range.mp hv
    unfold upPartialValue upFullValue
    cases hp : pairIdx? sel v with
    | some j => rfl
    | none => rw [if_pos hvn]
  rw [List.map_congr_left hup]

theorem upPartial_getD (n k v : ℕ) (sel : List (ℕ × ℕ)) (hv : v < n) :
    (upPartial n k sel).getD v usizeMax = upPartialValue k sel v := by
  unfold upPartial
  rw [List.getD_eq_getElem?_getD, List.getElem?_map, List.getElem?_range hv]
  rfl

theorem upPartialValue_claimed_lt {n : ℕ} {sel : List (ℕ × ℕ)} (k v : ℕ)
    (hok : SelOK n sel) (hmax : n < usizeMax) {j : ℕ}
    (hp : pairIdx? sel v = some j) : upPartialValue k sel v ≠ usizeMax := by
  unfold upPartialValue
  rw [hp]
  show j ≠ usizeMax
  have h1 : j < sel.length := pairIdx?_lt hp
  have h2 : sel.length ≤ n := sel_length_le hok
  omega

theorem addSingle_statePartial (mesh : ProcessMesh) (sel : List (ℕ × ℕ)) (k : ℕ)
    (hok : SelOK mesh.vertices.length sel)
    (hmax : mesh.vertices.length < usizeMax) (hk : k < mesh.vertices.length) :
    addSingle mesh (statePartial mesh sel k) k = statePartial mesh sel (k + 1) := by
  cases hp : pairIdx? sel k with
  | some j =>
    have hcond : (statePartial mesh sel k).up_mapping.getD k usizeMax ≠ usizeMax := by
      show (upPartial mesh.vertices.length k sel).getD k usizeMax ≠ usizeMax
      rw [upPartial_getD _ _ _ _ hk]
      exact upPartialValue_claimed_lt k k hok hmax hp
    have haddj : addSingle mesh (statePartial mesh sel k) k = statePartial mesh sel k := by
      unfold addSingle
      rw [if_neg (fun hh => hcond hh)]
    rw [haddj]
    unfold statePartial
    have hs : singlesOf (k + 1) sel = singlesOf k sel := by
      unfold singlesOf
      rw [List.range_succ, List.filter_append]
      have : List.filter (fun v => (pairIdx? sel v).isNone) [k] = [] := by
        simp [hp]
      rw [this, List.append_nil]
    rw [hs]
    have hup : upPartial mesh.vertices.length k sel =
        upPartial mesh.vertices.length (k + 1) sel := by
      unfold upPartial
      apply List.map_congr_left
      intro v _
      unfold upPartialValue
      cases hq : pairIdx? sel v with
      | some j2 => rfl
      | none =>
        have hvk : v ≠ k := by
          intro hh
          rw [hh, hp] at hq
          cases hq
        have : v < k ↔ v < k + 1 := by omega
        by_cases hvlt : v < k
        · rw [if_pos hvlt, if_pos (by omega)]
        · rw [if_neg hvlt, if_neg (by omega)]
    rw [hup]
  | none =>
    have hcond : (statePartial mesh sel k).up_mapping.getD k usizeMax = usizeMax := by
      show (upPartial mesh.vertices.length k sel).getD k usizeMax = usizeMax
      rw [upPartial_getD _ _ _ _ hk]
      unfold upPartialValue
      rw [hp, if_neg (by omega)]
    have hadd : addSingle mesh (statePartial mesh sel k) k =
        { vertices := (statePartial mesh sel k).vertices ++ [mesh.vertices.getD k 0]
          normals := (statePartial mesh sel k).normals ++ [mesh.normals.getD k 0]
          dual_area := (statePartial mesh sel k).dual_area ++
            [mesh.dual_area.getD k 0]
          up_mapping := (statePartial mesh sel k).up_mapping.set k
            (statePartial mesh sel k).vertices.length } := by
      unfold addSingle
      rw [if_pos hcond]
    rw [hadd]
    have hsingles : singlesOf (k + 1) sel = singlesOf k sel ++ [k] := by
      unfold singlesOf
      rw [List.range_succ, List.filter_append]
      have : List.filter (fun v => (pairIdx? sel v).isNone) [k] = [k] := by
        simp [hp]
      rw [this]
    have hvlen : (statePartial mesh sel k).vertices.length =
        sel.length + (List.range k).countP (fun w => (pairIdx? sel w).isNone) := by
      show (sel.map (mergedPos mesh) ++
        (singlesOf k sel).map (fun v => mesh.vertices.getD v 0)).length = _
      rw [List.length_append, List.length_map, List.length_map]
      unfold singlesOf
      rw [← List.countP_eq_length_filter]
    unfold statePartial
    rw [hsingles]
    congr 1
    · rw [List.map_append]
      rw [List.append_assoc]
      rfl
    · rw [List.map_append, List.append_assoc]
      rfl
    · rw [List.map_append, List.append_assoc]
      rfl
    · show (upPartial mesh.vertices.length k sel).set k
        (statePartial mesh sel k).vertices.length =
        upPartial mesh.vertices.length (k + 1) sel
      rw [hvlen]
      apply List.ext_getElem?
      intro v
      by_cases hvn : v < mesh.vertices.length
      · have hrhs : (upPartial mesh.vertices.length (k + 1) sel)[v]? =
            some (upPartialValue (k + 1) sel v) := by
          unfold upPartial
          rw [List.getElem?_map, List.getElem?_range hvn]
          rfl
        rw [hrhs]
        by_cases hvk : v = k
        · subst hvk
          rw [List.getElem?_set_self (by
            unfold upPartial
            rw [List.length_map, List.length_range]
            exact hvn)]
          unfold upPartialValue
          rw [hp, if_pos (by omega)]
        · rw [List.getElem?_set_ne (fun hh => hvk hh.symm)]
          have hlhs : (upPartial mesh.vertices.length k sel)[v]? =
              some (upPartialValue k sel v) := by
            unfold upPartial
            rw [List.getElem?_map, List.getElem?_range hvn]
            rfl
          rw [hlhs]
          have : upPartialValue k sel v = upPartialValue (k + 1) sel v := by
            unfold upPartialValue
            cases hq : pairIdx? sel v with
            | some j2 => rfl
            | none =>
              by_cases hvlt : v < k
              · rw [if_pos hvlt, if_pos (by omega)]
              · rw [if_neg hvlt, if_neg (by omega)]
          rw [this]
      · have h1 : ((upPartial mesh.vertices.length k sel).set k
            (sel.length +
              (List.range k).countP (fun w => (pairIdx? sel w).isNone)))[v]? =
            none := by
          apply List.getElem?_eq_none
          rw [List.length_set]
          unfold upPartial
          rw [List.length_map, List.length_range]
          omega
        have h2 : (upPartial mesh.vertices.length (k + 1) sel)[v]? = none := by
          apply List.getElem?_eq_none
          unfold upPartial
          rw [List.length_map, List.length_range]
          omega
        rw [h1, h2]

theorem withSingles_spec (mesh : ProcessMesh) (sel : List (ℕ × ℕ))
    (hok : SelOK mesh.vertices.length sel)
    (hmax : mesh.vertices.length < usizeMax) :
    withSingles mesh (stateOf mesh sel) = stateFull mesh sel := by
  have key : ∀ k, k ≤ mesh.vertices.length →
      (List.range k).foldl (addSingle mesh) (stateOf mesh sel) =
        statePartial mesh sel k := by
    intro k
    induction k with
    | zero =>
      intro _
      rw [statePartial_zero]
      rfl
    | succ k2 ih =>
      intro hk1
      rw [List.range_succ, List.foldl_append, ih (by omega)]
      show addSingle mesh (statePartial mesh sel k2) k2 = _
      exact addSingle_statePartial mesh sel k2 hok hmax (by omega)
  unfold withSingles
  rw [key mesh.vertices.length le_rfl, statePartial_full]

/-- Well-formed mesh: parallel attribute arrays, adjacency indices in
range, and a vertex count below the sentinel. -/
def MeshWF (mesh : ProcessMesh) : Prop :=
  mesh.normals.length = mesh.vertices.length ∧
  mesh.dual_area.length = mesh.vertices.length ∧
  mesh.adjacency_face.length = mesh.vertices.length ∧
  (∀ l ∈ mesh.adjacency_face, ∀ e ∈ l, e.1 < mesh.vertices.length) ∧
  mesh.vertices.length < usizeMax

instance : IsTotal (ℕ × ℕ × ℝ) rankLE :=
  ⟨fun a b => le_total b.2.2 a.2.2⟩

instance : IsTrans (ℕ × ℕ × ℝ) rankLE :=
  ⟨fun _ _ _ hab hbc => le_trans hbc hab⟩

theorem mem_ranking_shape (mesh : ProcessMesh) (e : ℕ × ℕ × ℝ)
    (he : e ∈ ranking mesh) :
    e.2.2 = rankScore mesh e.1 e.2.1 ∧
      e.1 < mesh.adjacency_face.length ∧
      ∃ l ∈ mesh.adjacency_face, ∃ en ∈ l, en.1 = e.2.1 := by
  unfold ranking at he
  rcases List.mem_flatMap.mp he with ⟨p, hp, he2⟩
  rcases List.mem_map.mp he2 with ⟨en, hen, hsh⟩
  have h1 : mesh.adjacency_face[p.1]? = some p.2 :=
    List.mem_enum_iff_getElem?.mp hp
  have h2 : p.1 < mesh.adjacency_face.length := by
    by_contra hcon
    rw [List.getElem?_eq_none (by omega)] at h1
    cases h1
  have h3 : p.2 ∈ mesh.adjacency_face := by
    have hget : mesh.adjacency_face[p.1] = p.2 := by
      have := List.getElem?_eq_getElem h2
      rw [h1] at this
      exact (Option.some.inj this).symm
    rw [← hget]
    exact List.getElem_mem h2
  subst hsh
  exact ⟨rfl, h2, p.2, h3, en, hen, rfl⟩

theorem sortedRanking_bounds (mesh : ProcessMesh) (hWF : MeshWF mesh) :
    ∀ e ∈ sortedRanking mesh,
      e.1 < mesh.vertices.length ∧ e.2.1 < mesh.vertices.length := by
  intro e he
  have he2 : e ∈ ranking mesh := by
    unfold sortedRanking at he
    exact (List.perm_insertionSort rankLE (ranking mesh)).mem_iff.mp he
  rcases mem_ranking_shape mesh e he2 with ⟨_, h1, l, hl, en, hen, hj⟩
  constructor
  · rw [hWF.2.2.1] at h1
    exact h1
  · rw [← hj]
    exact hWF.2.2.2.1 l hl en hen

/-- The selection the greedy scan makes on a mesh. -/
noncomputable def selOf (mesh : ProcessMesh) : List (ℕ × ℕ) :=
  specSelect [] (sortedRanking mesh)

theorem stateOf_nil (mesh : ProcessMesh) :
    (⟨[], [], [], List.replicate mesh.vertices.length usizeMax⟩ : MergeState) =
      stateOf mesh [] := by
  unfold stateOf upOfSel
  congr 1
  apply List.ext_getElem?
  intro k
  by_cases hk : k < mesh.vertices.length
  · rw [List.getElem?_map, List.getElem?_range hk]
    rw [List.getElem?_replicate]
    rw [if_pos hk]
    rfl
  · rw [List.getElem?_eq_none (by simp; omega),
      List.getElem?_eq_none (by simp; omega)]

theorem scanMerges_eq_spec (mesh : ProcessMesh) (hWF : MeshWF mesh) :
    scanMerges mesh (sortedRanking mesh) = stateOf mesh (selOf mesh) ∧
      SelOK mesh.vertices.length (selOf mesh) := by
  have h0 : SelOK mesh.vertices.length [] := ⟨by simp, List.Pairwise.nil⟩
  have hes := sortedRanking_bounds mesh hWF
  rcases scanFold_spec mesh hWF.2.2.2.2 (sortedRanking mesh) [] hes h0 with
    ⟨hst, hok⟩
  have hinit : scanMerges mesh (sortedRanking mesh) =
      (sortedRanking mesh).foldl (scanStep mesh) (stateOf mesh []) := by
    unfold scanMerges
    rw [stateOf_nil]
  rw [hinit, hst]
  constructor
  · rfl
  · exact hok

theorem scan_state_full (mesh : ProcessMesh) (hWF : MeshWF mesh) :
    withSingles mesh (scanMerges mesh (sortedRanking mesh)) =
      stateFull mesh (selOf mesh) := by
  rcases scanMerges_eq_spec mesh hWF with ⟨hst, hok⟩
  rw [hst]
  exact withSingles_spec mesh (selOf mesh) hok hWF.2.2.2.2

theorem selOK_selOf (mesh : ProcessMesh) (hWF : MeshWF mesh) :
    SelOK mesh.vertices.length (selOf mesh) :=
  (scanMerges_eq_spec mesh hWF).2

theorem coarsen_snd (mesh : ProcessMesh) (hWF : MeshWF mesh) :
    (coarsen mesh).2 = upFull mesh.vertices.length (selOf mesh) := by
  show (withSingles mesh (scanMerges mesh (sortedRanking mesh))).up_mapping = _
  rw [scan_state_full mesh hWF]
  rfl

theorem coarsen_fst (mesh : ProcessMesh) (hWF : MeshWF mesh) :
    (coarsen mesh).1 =
      { vertices := (stateFull mesh (selOf mesh)).vertices
        normals := (stateFull mesh (selOf mesh)).normals
        tris := []
        adjacency_face := coarseAdjacency mesh
          (stateFull mesh (selOf mesh)).up_mapping
          (stateFull mesh (selOf mesh)).vertices.length
        dual_area := (stateFull mesh (selOf mesh)).dual_area } := by
  show ProcessMesh.mk
      (withSingles mesh (scanMerges mesh (sortedRanking mesh))).vertices
      (withSingles mesh (scanMerges mesh (sortedRanking mesh))).normals []
      (coarseAdjacency mesh
        (withSingles mesh (scanMerges mesh (sortedRanking mesh))).up_mapping
        (withSingles mesh (scanMerges mesh (sortedRanking mesh))).vertices.length)
      (withSingles mesh (scanMerges mesh (sortedRanking mesh))).dual_area = _
  rw [scan_state_full mesh hWF]

theorem getD_map_lt {α β : Type} (f : α → β) (l : List α) (k : ℕ)
    (hk : k < l.length) (d : β) :
    (l.map f).getD k d = f (l.get ⟨k, hk⟩) := by
  rw [List.getD_eq_getElem?_getD, List.getElem?_map, List.getElem?_eq_getElem hk]
  rfl

theorem countP_range_mono (p : ℕ → Bool) {a b : ℕ} (h : a ≤ b) :
    (List.range a).countP p ≤ (List.range b).countP p := by
  induction b with
  | zero =>
    have : a = 0 := by omega
    subst this
    exact le_rfl
  | succ m ih =>
    by_cases ham : a = m + 1
    · subst ham
      exact le_rfl
    · have h2 : a ≤ m := by omega
      rw [List.range_succ, List.countP_append]
      exact le_trans (ih h2) (Nat.le_add_right _ _)

theorem countP_range_lt (p : ℕ → Bool) (v n : ℕ) (hv : v < n)
    (hp : p v = true) :
    (List.range v).countP p < (List.range n).countP p := by
  have h1 : (List.range (v + 1)).countP p = (List.range v).countP p + 1 := by
    rw [List.range_succ, List.countP_append]
    simp [hp]
  have h2 : (List.range (v + 1)).countP p ≤ (List.range n).countP p :=
    countP_range_mono p (by omega)
  omega

theorem filter_range_getD (p : ℕ → Bool) :
    ∀ (n v : ℕ), v < n → p v = true →
      ((List.range n).filter p).getD ((List.range v).countP p) 0 = v := by
  intro n
  induction n with
  | zero =>
    intro v hv
    omega
  | succ m ih =>
    intro v hv hp
    rw [List.range_succ, List.filter_append]
    by_cases hvm : v < m
    · have hlt : (List.range v).countP p < ((List.range m).filter p).length := by
        rw [← List.countP_eq_length_filter]
        exact countP_range_lt p v m hvm hp
      rw [List.getD_append _ _ _ _ hlt]
      exact ih v hvm hp
    · have hvm2 : v = m := by omega
      subst hvm2
      rw [show List.filter p [v] = [v] by simp [hp]]
      have hlen : ((List.range v).filter p).length = (List.range v).countP p :=
        (List.countP_eq_length_filter p (List.range v)).symm
      rw [List.getD_append_right _ _ _ _ (by rw [hlen])]
      rw [hlen, Nat.sub_self]
      rfl

theorem pairIdx?_of_get : ∀ (sel : List (ℕ × ℕ)), sel.Pairwise pdisj →
    ∀ (k : ℕ) (hk : k < sel.length),
      pairIdx? sel (sel.get ⟨k, hk⟩).1 = some k ∧
        pairIdx? sel (sel.get ⟨k, hk⟩).2 = some k := by
  intro sel
  induction sel with
  | nil =>
    intro _ k hk
    simp at hk
  | cons q rest ih =>
    intro hpw k hk
    cases k with
    | zero =>
      constructor
      · show pairIdx? (q :: rest) q.1 = some 0
        unfold pairIdx?
        rw [if_pos (Or.inl rfl)]
      · show pairIdx? (q :: rest) q.2 = some 0
        unfold pairIdx?
        rw [if_pos (Or.inr rfl)]
    | succ k2 =>
      have hk2 : k2 < rest.length := by
        simp at hk
        omega
      have hmem : rest.get ⟨k2, hk2⟩ ∈ rest := List.get_mem rest k2 hk2
      have hd : pdisj q (rest.get ⟨k2, hk2⟩) :=
        (List.pairwise_cons.mp hpw).1 _ hmem
      have hget : (q :: rest).get ⟨k2 + 1, hk⟩ = rest.get ⟨k2, hk2⟩ := rfl
      rw [hget]
      rcases ih (List.pairwise_cons.mp hpw).2 k2 hk2 with ⟨h1, h2⟩
      constructor
      · show pairIdx? (q :: rest) (rest.get ⟨k2, hk2⟩).1 = some (k2 + 1)
        unfold pairIdx?
        rw [if_neg]
        · rw [h1]
          rfl
        · rintro (hh | hh)
          · exact hd.1 hh.symm
          · exact hd.2.2.1 hh.symm
      · show pairIdx? (q :: rest) (rest.get ⟨k2, hk2⟩).2 = some (k2 + 1)
        unfold pairIdx?
        rw [if_neg]
        · rw [h2]
          rfl
        · rintro (hh | hh)
          · exact hd.2.1 hh.symm
          · exact hd.2.2.2 hh.symm

theorem normalize_smul_pos (t : ℝ) (w : Vec3) (ht : 0 < t) :
    normalize (t • w) = normalize w := by
  unfold Vec3.normalize Vec3.length
  have hd : dot (t • w) (t • w) = t ^ 2 * dot w w := by
    unfold dot
    simp
    ring
  rw [hd, Real.sqrt_mul (by positivity), Real.sqrt_sq (le_of_lt ht)]
  have ht0 : t ≠ 0 := ne_of_gt ht
  ext
  · show (t * Real.sqrt (dot w w))⁻¹ * (t * w.x) = (Real.sqrt (dot w w))⁻¹ * w.x
    rw [mul_inv]
    calc t⁻¹ * (Real.sqrt (dot w w))⁻¹ * (t * w.x)
        = (t⁻¹ * t) * ((Real.sqrt (dot w w))⁻¹ * w.x) := by ring
      _ = (Real.sqrt (dot w w))⁻¹ * w.x := by
          rw [inv_mul_cancel₀ ht0, one_mul]
  · show (t * Real.sqrt (dot w w))⁻¹ * (t * w.y) = (Real.sqrt (dot w w))⁻¹ * w.y
    rw [mul_inv]
    calc t⁻¹ * (Real.sqrt (dot w w))⁻¹ * (t * w.y)
        = (t⁻¹ * t) * ((Real.sqrt (dot w w))⁻¹ * w.y) := by ring
      _ = (Real.sqrt (dot w w))⁻¹ * w.y := by
          rw [inv_mul_cancel₀ ht0, one_mul]
  · show (t * Real.sqrt (dot w w))⁻¹ * (t * w.z) = (Real.sqrt (dot w w))⁻¹ * w.z
    rw [mul_inv]
    calc t⁻¹ * (Real.sqrt (dot w w))⁻¹ * (t * w.z)
        = (t⁻¹ * t) * ((Real.sqrt (dot w w))⁻¹ * w.z) := by ring
      _ = (Real.sqrt (dot w w))⁻¹ * w.z := by
          rw [inv_mul_cancel₀ ht0, one_mul]

theorem divScalar_eq_smul (w : Vec3) (c : ℝ) : divScalar w c = c⁻¹ • w := by
  unfold divScalar
  ext
  · show w.x / c = c⁻¹ * w.x
    rw [div_eq_inv_mul]
  · show w.y / c = c⁻¹ * w.y
    rw [div_eq_inv_mul]
  · show w.z / c = c⁻¹ * w.z
    rw [div_eq_inv_mul]

theorem normalize_divScalar_pos (w : Vec3) (c : ℝ) (hc : 0 < c) :
    normalize (divScalar w c) = normalize w := by
  rw [divScalar_eq_smul]
  exact normalize_smul_pos c⁻¹ w (by positivity)

theorem getD_mem_of_lt {α : Type} (l : List α) (i : ℕ) (d : α)
    (h : i < l.length) : l.getD i d ∈ l := by
  rw [List.getD_eq_getElem?_getD, List.getElem?_eq_getElem h]
  exact List.getElem_mem h

theorem ratio_eq_maxmin (ai aj : ℝ) (_hai : 0 < ai) (_haj : 0 < aj) :
    (if ai > aj then ai / aj else aj / ai) = max ai aj / min ai aj := by
  by_cases h : ai > aj
  · rw [if_pos h, max_eq_left (le_of_lt h), min_eq_right (le_of_lt h)]
  · have h2 : ai ≤ aj := not_lt.mp h
    rw [if_neg h, max_eq_right h2, min_eq_left h2]

theorem upFull_getD (n : ℕ) (sel : List (ℕ × ℕ)) (v : ℕ) (hv : v < n) :
    (upFull n sel).getD v usizeMax = upFullValue sel v := by
  unfold upFull
  rw [List.getD_eq_getElem?_getD, List.getElem?_map, List.getElem?_range hv]
  rfl

theorem stateFull_vertices_length (mesh : ProcessMesh) (sel : List (ℕ × ℕ)) :
    (stateFull mesh sel).vertices.length =
      sel.length + (singlesOf mesh.vertices.length sel).length := by
  show (sel.map (mergedPos mesh) ++
    (singlesOf mesh.vertices.length sel).map
      (fun v => mesh.vertices.getD v 0)).length = _
  rw [List.length_append, List.length_map, List.length_map]

/-- C8: the merge score of every directed adjacency edge equals the ratio
of the larger to the smaller of the two dual areas (a value at least 1)
multiplied by the dot product of the two unit normals; the edges are
processed in descending score order (the scan list is a sorted permutation
of the ranking); and the scan's merge decisions coincide with the greedy
claimed-set rule: an edge is merged exactly when neither endpoint has been
claimed by an earlier edge of that order. -/
theorem C8_scores_order_greedy (mesh : ProcessMesh) (hWF : MeshWF mesh)
    (hpos : ∀ a ∈ mesh.dual_area, 0 < a) :
    (∀ e ∈ ranking mesh,
      1 ≤ max (mesh.dual_area.getD e.1 0) (mesh.dual_area.getD e.2.1 0) /
          min (mesh.dual_area.getD e.1 0) (mesh.dual_area.getD e.2.1 0) ∧
      e.2.2 =
        max (mesh.dual_area.getD e.1 0) (mesh.dual_area.getD e.2.1 0) /
            min (mesh.dual_area.getD e.1 0) (mesh.dual_area.getD e.2.1 0) *
          dot (mesh.normals.getD e.1 0) (mesh.normals.getD e.2.1 0)) ∧
    List.Sorted rankLE (sortedRanking mesh) ∧
    (sortedRanking mesh).Perm (ranking mesh) ∧
    scanMerges mesh (sortedRanking mesh) = stateOf mesh (selOf mesh) := by
  refine ⟨?_, List.sorted_insertionSort rankLE (ranking mesh),
    List.perm_insertionSort rankLE (ranking mesh),
    (scanMerges_eq_spec mesh hWF).1⟩
  intro e he
  have hb : e.1 < mesh.vertices.length ∧ e.2.1 < mesh.vertices.length := by
    apply sortedRanking_bounds mesh hWF
    unfold sortedRanking
    exact (List.perm_insertionSort rankLE (ranking mesh)).mem_iff.mpr he
  have hai : 0 < mesh.dual_area.getD e.1 0 := by
    apply hpos
    apply getD_mem_of_lt
    rw [hWF.2.1]
    exact hb.1
  have haj : 0 < mesh.dual_area.getD e.2.1 0 := by
    apply hpos
    apply getD_mem_of_lt
    rw [hWF.2.1]
    exact hb.2
  constructor
  · rw [one_le_div (lt_min hai haj)]
    exact min_le_max
  · rw [(mem_ranking_shape mesh e he).1]
    have hrs : rankScore mesh e.1 e.2.1 =
        dot (mesh.normals.getD e.1 0) (mesh.normals.getD e.2.1 0) *
          (if mesh.dual_area.getD e.1 0 > mesh.dual_area.getD e.2.1 0 then
            mesh.dual_area.getD e.1 0 / mesh.dual_area.getD e.2.1 0
          else mesh.dual_area.getD e.2.1 0 / mesh.dual_area.getD e.1 0) := rfl
    rw [hrs, ratio_eq_maxmin _ _ hai haj, mul_comm]

/-- Witness mesh for the hierarchy-builder theorems: two vertices joined by
directed edges in both directions. -/
noncomputable def mesh2 : ProcessMesh :=
  ⟨[⟨0, 0, 0⟩, ⟨2, 0, 0⟩],
    [⟨3 / 5, 4 / 5, 0⟩, ⟨3 / 5, -(4 / 5), 0⟩],
    [], [[(1, 0)], [(0, 0)]], [1, 1]⟩

theorem mesh2_wf : MeshWF mesh2 := by
  refine ⟨rfl, rfl, rfl, ?_, by decide⟩
  decide

theorem mesh2_pos : ∀ a ∈ mesh2.dual_area, 0 < a := by
  intro a ha
  have : a = 1 ∨ a = 1 ∨ False := by
    simpa [mesh2] using ha
  rcases this with rfl | rfl | hF
  · norm_num
  · norm_num
  · cases hF

/-- Witness for C8 at a concrete well-formed mesh. -/
theorem C8_scores_order_greedy_witness :
    (MeshWF mesh2 ∧ ∀ a ∈ mesh2.dual_area, 0 < a) ∧
      ((∀ e ∈ ranking mesh2,
        1 ≤ max (mesh2.dual_area.getD e.1 0) (mesh2.dual_area.getD e.2.1 0) /
            min (mesh2.dual_area.getD e.1 0) (mesh2.dual_area.getD e.2.1 0) ∧
        e.2.2 =
          max (mesh2.dual_area.getD e.1 0) (mesh2.dual_area.getD e.2.1 0) /
              min (mesh2.dual_area.getD e.1 0) (mesh2.dual_area.getD e.2.1 0) *
            dot (mesh2.normals.getD e.1 0) (mesh2.normals.getD e.2.1 0)) ∧
      List.Sorted rankLE (sortedRanking mesh2) ∧
      (sortedRanking mesh2).Perm (ranking mesh2) ∧
      scanMerges mesh2 (sortedRanking mesh2) = stateOf mesh2 (selOf mesh2)) :=
  ⟨⟨mesh2_wf, mesh2_pos⟩, C8_scores_order_greedy mesh2 mesh2_wf mesh2_pos⟩

/-- C9: every merged pair produces a coarse vertex whose position is the
dual-area-weighted average of the two positions, whose normal is the
dual-area-weighted average of the two normals re-normalized to unit length,
and whose dual area is the sum of the two; both endpoints map to that
coarse index.  Every unclaimed vertex becomes a singleton coarse vertex
carrying its original position, normal and dual area unchanged. -/
theorem C9_merged_and_singleton_vertices (mesh : ProcessMesh)
    (hWF : MeshWF mesh) (hpos : ∀ a ∈ mesh.dual_area, 0 < a) :
    (∀ (k : ℕ) (hk : k < (selOf mesh).length),
      (coarsen mesh).1.vertices.getD k 0 =
          divScalar
            (mesh.dual_area.getD ((selOf mesh).get ⟨k, hk⟩).1 0 •
                mesh.vertices.getD ((selOf mesh).get ⟨k, hk⟩).1 0 +
              mesh.dual_area.getD ((selOf mesh).get ⟨k, hk⟩).2 0 •
                mesh.vertices.getD ((selOf mesh).get ⟨k, hk⟩).2 0)
            (mesh.dual_area.getD ((selOf mesh).get ⟨k, hk⟩).1 0 +
              mesh.dual_area.getD ((selOf mesh).get ⟨k, hk⟩).2 0) ∧
        (coarsen mesh).1.normals.getD k 0 =
          normalize
            (divScalar
              (mesh.dual_area.getD ((selOf mesh).get ⟨k, hk⟩).1 0 •
                  mesh.normals.getD ((selOf mesh).get ⟨k, hk⟩).1 0 +
                mesh.dual_area.getD ((selOf mesh).get ⟨k, hk⟩).2 0 •
                  mesh.normals.getD ((selOf mesh).get ⟨k, hk⟩).2 0)
              (mesh.dual_area.getD ((selOf mesh).get ⟨k, hk⟩).1 0 +
                mesh.dual_area.getD ((selOf mesh).get ⟨k, hk⟩).2 0)) ∧
        (coarsen mesh).1.dual_area.getD k 0 =
          mesh.dual_area.getD ((selOf mesh).get ⟨k, hk⟩).1 0 +
            mesh.dual_area.getD ((selOf mesh).get ⟨k, hk⟩).2 0 ∧
        (coarsen mesh).2.getD ((selOf mesh).get ⟨k, hk⟩).1 usizeMax = k ∧
        (coarsen mesh).2.getD ((selOf mesh).get ⟨k, hk⟩).2 usizeMax = k) ∧
    (∀ v, v < mesh.vertices.length → v ∉ endpoints (selOf mesh) →
      (coarsen mesh).2.getD v usizeMax < (coarsen mesh).1.vertices.length ∧
      (coarsen mesh).1.vertices.getD ((coarsen mesh).2.getD v usizeMax) 0 =
        mesh.vertices.getD v 0 ∧
      (coarsen mesh).1.normals.getD ((coarsen mesh).2.getD v usizeMax) 0 =
        mesh.normals.getD v 0 ∧
      (coarsen mesh).1.dual_area.getD ((coarsen mesh).2.getD v usizeMax) 0 =
        mesh.dual_area.getD v 0) := by
  have hok := selOK_selOf mesh hWF
  constructor
  · intro k hk
    have hp := (selOf mesh).get_mem k hk
    have hb := hok.1 _ hp
    have hai : 0 < mesh.dual_area.getD ((selOf mesh).get ⟨k, hk⟩).1 0 := by
      apply hpos
      apply getD_mem_of_lt
      rw [hWF.2.1]
      exact hb.1
    have haj : 0 < mesh.dual_area.getD ((selOf mesh).get ⟨k, hk⟩).2 0 := by
      apply hpos
      apply getD_mem_of_lt
      rw [hWF.2.1]
      exact hb.2
    have hkmap : k < ((selOf mesh).map (mergedPos mesh)).length := by
      rw [List.length_map]
      exact hk
    have hidx := pairIdx?_of_get (selOf mesh) hok.2 k hk
    refine ⟨?_, ?_, ?_, ?_, ?_⟩
    · rw [coarsen_fst mesh hWF]
      show ((selOf mesh).map (mergedPos mesh) ++
        (singlesOf mesh.vertices.length (selOf mesh)).map
          (fun v => mesh.vertices.getD v 0)).getD k 0 = _
      rw [List.getD_append _ _ _ _ hkmap, getD_map_lt _ _ k hk]
      rfl
    · rw [coarsen_fst mesh hWF]
      show ((selOf mesh).map (mergedNrm mesh) ++
        (singlesOf mesh.vertices.length (selOf mesh)).map
          (fun v => mesh.normals.getD v 0)).getD k 0 = _
      rw [List.getD_append _ _ _ _ (by rw [List.length_map]; exact hk),
        getD_map_lt _ _ k hk]
      rw [normalize_divScalar_pos _ _ (by positivity)]
      rfl
    · rw [coarsen_fst mesh hWF]
      show ((selOf mesh).map (mergedArea mesh) ++
        (singlesOf mesh.vertices.length (selOf mesh)).map
          (fun v => mesh.dual_area.getD v 0)).getD k 0 = _
      rw [List.getD_append _ _ _ _ (by rw [List.length_map]; exact hk),
        getD_map_lt _ _ k hk]
      rfl
    · rw [coarsen_snd mesh hWF,
        upFull_getD mesh.vertices.length _ _ hb.1]
      unfold upFullValue
      rw [hidx.1]
    · rw [coarsen_snd mesh hWF,
        upFull_getD mesh.vertices.length _ _ hb.2]
      unfold upFullValue
      rw [hidx.2]
  · intro v hv hnm
    have hnone : pairIdx? (selOf mesh) v = none := pairIdx?_eq_none_iff.mpr hnm
    have hup : (coarsen mesh).2.getD v usizeMax =
        (selOf mesh).length +
          (List.range v).countP (fun w => (pairIdx? (selOf mesh) w).isNone) := by
      rw [coarsen_snd mesh hWF, upFull_getD mesh.vertices.length _ _ hv]
      unfold upFullValue
      rw [hnone]
    have hcnt : (List.range v).countP (fun w => (pairIdx? (selOf mesh) w).isNone) <
        (singlesOf mesh.vertices.length (selOf mesh)).length := by
      unfold singlesOf
      rw [← List.countP_eq_length_filter]
      exact countP_range_lt _ v mesh.vertices.length hv (by simp [hnone])
    have hnlen : (coarsen mesh).1.vertices.length =
        (selOf mesh).length +
          (singlesOf mesh.vertices.length (selOf mesh)).length := by
      rw [coarsen_fst mesh hWF]
      exact stateFull_vertices_length mesh (selOf mesh)
    have hsingle : (singlesOf mesh.vertices.length (selOf mesh)).get
        ⟨(List.range v).countP (fun w => (pairIdx? (selOf mesh) w).isNone),
          hcnt⟩ = v := by
      have hfr := filter_range_getD (fun w => (pairIdx? (selOf mesh) w).isNone)
        mesh.vertices.length v hv (by simp [hnone])
      rw [show (List.range mesh.vertices.length).filter
          (fun w => (pairIdx? (selOf mesh) w).isNone) =
          singlesOf mesh.vertices.length (selOf mesh) from rfl] at hfr
      rw [List.getD_eq_getElem?_getD, List.getElem?_eq_getElem hcnt] at hfr
      exact hfr
    refine ⟨?_, ?_, ?_, ?_⟩
    · rw [hup, hnlen]
      omega
    · rw [coarsen_fst mesh hWF, hup]
      show ((selOf mesh).map (mergedPos mesh) ++
        (singlesOf mesh.vertices.length (selOf mesh)).map
          (fun w => mesh.vertices.getD w 0)).getD _ 0 = _
      rw [List.getD_append_right _ _ _ _ (by rw [List.length_map]; omega)]
      rw [List.length_map, Nat.add_sub_cancel_left]
      rw [getD_map_lt _ _ _ hcnt, hsingle]
    · rw [coarsen_fst mesh hWF, hup]
      show ((selOf mesh).map (mergedNrm mesh) ++
        (singlesOf mesh.vertices.length (selOf mesh)).map
          (fun w => mesh.normals.getD w 0)).getD _ 0 = _
      rw [List.getD_append_right _ _ _ _ (by rw [List.length_map]; omega)]
      rw [List.length_map, Nat.add_sub_cancel_left]
      rw [getD_map_lt _ _ _ hcnt, hsingle]
    · rw [coarsen_fst mesh hWF, hup]
      show ((selOf mesh).map (mergedArea mesh) ++
        (singlesOf mesh.vertices.length (selOf mesh)).map
          (fun w => mesh.dual_area.getD w 0)).getD _ 0 = _
      rw [List.getD_append_right _ _ _ _ (by rw [List.length_map]; omega)]
      rw [List.length_map, Nat.add_sub_cancel_left]
      rw [getD_map_lt _ _ _ hcnt, hsingle]

/-- Witness for C9 at the concrete mesh `mesh2`. -/
theorem C9_merged_and_singleton_vertices_witness :
    (MeshWF mesh2 ∧ ∀ a ∈ mesh2.dual_area, 0 < a) ∧
      ((∀ (k : ℕ) (hk : k < (selOf mesh2).length),
        (coarsen mesh2).1.vertices.getD k 0 =
            divScalar
              (mesh2.dual_area.getD ((selOf mesh2).get ⟨k, hk⟩).1 0 •
                  mesh2.vertices.getD ((selOf mesh2).get ⟨k, hk⟩).1 0 +
                mesh2.dual_area.getD ((selOf mesh2).get ⟨k, hk⟩).2 0 •
                  mesh2.vertices.getD ((selOf mesh2).get ⟨k, hk⟩).2 0)
              (mesh2.dual_area.getD ((selOf mesh2).get ⟨k, hk⟩).1 0 +
                mesh2.dual_area.getD ((selOf mesh2).get ⟨k, hk⟩).2 0) ∧
          (coarsen mesh2).1.normals.getD k 0 =
            normalize
              (divScalar
                (mesh2.dual_area.getD ((selOf mesh2).get ⟨k, hk⟩).1 0 •
                    mesh2.normals.getD ((selOf mesh2).get ⟨k, hk⟩).1 0 +
                  mesh2.dual_area.getD ((selOf mesh2).get ⟨k, hk⟩).2 0 •
                    mesh2.normals.getD ((selOf mesh2).get ⟨k, hk⟩).2 0)
                (mesh2.dual_area.getD ((selOf mesh2).get ⟨k, hk⟩).1 0 +
                  mesh2.dual_area.getD ((selOf mesh2).get ⟨k, hk⟩).2 0)) ∧
          (coarsen mesh2).1.dual_area.getD k 0 =
            mesh2.dual_area.getD ((selOf mesh2).get ⟨k, hk⟩).1 0 +
              mesh2.dual_area.getD ((selOf mesh2).get ⟨k, hk⟩).2 0 ∧
          (coarsen mesh2).2.getD ((selOf mesh2).get ⟨k, hk⟩).1 usizeMax = k ∧
          (coarsen mesh2).2.getD ((selOf mesh2).get ⟨k, hk⟩).2 usizeMax = k) ∧
      (∀ v, v < mesh2.vertices.length → v ∉ endpoints (selOf mesh2) →
        (coarsen mesh2).2.getD v usizeMax < (coarsen mesh2).1.vertices.length ∧
        (coarsen mesh2).1.vertices.getD ((coarsen mesh2).2.getD v usizeMax) 0 =
          mesh2.vertices.getD v 0 ∧
        (coarsen mesh2).1.normals.getD ((coarsen mesh2).2.getD v usizeMax) 0 =
          mesh2.normals.getD v 0 ∧
        (coarsen mesh2).1.dual_area.getD
            ((coarsen mesh2).2.getD v usizeMax) 0 =
          mesh2.dual_area.getD v 0)) :=
  ⟨⟨mesh2_wf, mesh2_pos⟩,
    C9_merged_and_singleton_vertices mesh2 mesh2_wf mesh2_pos⟩

/-! ### Coarse mesh well-formedness and the termination measure -/

theorem foldl_preserve {α β : Type} (P : β → Prop) (f : β → α → β)
    (hf : ∀ b a, P b → P (f b a)) : ∀ (l : List α) (b : β), P b → P (l.foldl f b) := by
  intro l
  induction l with
  | nil => intro b hb; exact hb
  | cons a t ih =>
    intro b hb
    rw [List.foldl_cons]
    exact ih (f b a) (hf b a hb)

theorem mem_of_mem_set {α : Type} : ∀ (l : List α) (i : ℕ) (x a : α),
    a ∈ l.set i x → a ∈ l ∨ a = x := by
  intro l
  induction l with
  | nil =>
    intro i x a ha
    cases ha
  | cons b t ih =>
    intro i x a ha
    cases i with
    | zero =>
      rcases List.mem_cons.mp ha with rfl | h2
      · exact Or.inr rfl
      · exact Or.inl (List.mem_cons_of_mem b h2)
    | succ i2 =>
      rcases List.mem_cons.mp ha with rfl | h2
      · exact Or.inl (List.mem_cons_self a t)
      · rcases ih i2 x a h2 with h3 | h3
        · exact Or.inl (List.mem_cons_of_mem b h3)
        · exact Or.inr h3

theorem dedupC_subset {α : Type} [DecidableEq α] (l : List α) :
    ∀ a ∈ dedupC l, a ∈ l := by
  suffices H : ∀ (n : ℕ) (l2 : List α), l2.length ≤ n → ∀ a ∈ dedupC l2, a ∈ l2 by
    exact H l.length l le_rfl
  intro n
  induction n with
  | zero =>
    intro l2 hl a ha
    cases l2 with
    | nil =>
      rw [show dedupC ([] : List α) = [] by simp [dedupC]] at ha
      cases ha
    | cons b t => simp at hl
  | succ m ih =>
    intro l2 hl a ha
    cases l2 with
    | nil =>
      rw [show dedupC ([] : List α) = [] by simp [dedupC]] at ha
      cases ha
    | cons b t =>
      cases t with
      | nil =>
        rw [show dedupC [b] = [b] by simp [dedupC]] at ha
        exact ha
      | cons c t2 =>
        by_cases hbc : b = c
        · have hd : dedupC (b :: c :: t2) = dedupC (b :: t2) := by
            simp only [dedupC]
            rw [if_pos hbc]
          rw [hd] at ha
          have hlen : (b :: t2).length ≤ m := by
            simp at hl ⊢
            omega
          rcases List.mem_cons.mp (ih (b :: t2) hlen a ha) with rfl | h2
          · exact List.mem_cons_self a (c :: t2)
          · exact List.mem_cons_of_mem b (List.mem_cons_of_mem c h2)
        · have hd : dedupC (b :: c :: t2) = b :: dedupC (c :: t2) := by
            simp only [dedupC]
            rw [if_neg hbc]
          rw [hd] at ha
          have hlen : (c :: t2).length ≤ m := by
            simp at hl ⊢
            omega
          rcases List.mem_cons.mp ha with rfl | h2
          · exact List.mem_cons_self a (c :: t2)
          · exact List.mem_cons_of_mem b (ih (c :: t2) hlen a h2)

theorem upFullValue_lt {n : ℕ} (sel : List (ℕ × ℕ))
    {v : ℕ} (hv : v < n) :
    upFullValue sel v < sel.length + (singlesOf n sel).length := by
  unfold upFullValue
  cases hp : pairIdx? sel v with
  | some k =>
    show k < sel.length + (singlesOf n sel).length
    have := pairIdx?_lt hp
    omega
  | none =>
    show sel.length + (List.range v).countP (fun w => (pairIdx? sel w).isNone) <
      sel.length + (singlesOf n sel).length
    have hcnt : (List.range v).countP (fun w => (pairIdx? sel w).isNone) <
        (singlesOf n sel).length := by
      unfold singlesOf
      rw [← List.countP_eq_length_filter]
      exact countP_range_lt _ v n hv (by simp [hp])
    omega

theorem pdisj_symm : Symmetric pdisj := by
  intro p q h
  exact ⟨fun hh => h.1 hh.symm, fun hh => h.2.2.1 hh.symm,
    fun hh => h.2.1 hh.symm, fun hh => h.2.2.2 hh.symm⟩

theorem singles_nodup (n : ℕ) (sel : List (ℕ × ℕ)) :
    (singlesOf n sel).Nodup :=
  List.Nodup.filter _ (List.nodup_range n)

theorem fsts_disjoint_singles {n : ℕ} {sel : List (ℕ × ℕ)} :
    List.Disjoint (sel.map Prod.fst) (singlesOf n sel) := by
  intro a ha hs
  rcases List.mem_map.mp ha with ⟨p, hp, rfl⟩
  have h1 : (pairIdx? sel p.1).isNone = true := (List.mem_filter.mp hs).2
  have h2 : pairIdx? sel p.1 = none := by
    cases hq : pairIdx? sel p.1 with
    | none => rfl
    | some k =>
      rw [hq] at h1
      cases h1
  exact (pairIdx?_eq_none_iff.mp h2)
    (mem_endpoints.mpr ⟨p, hp, Or.inl rfl⟩)

theorem fsts_nodup {n : ℕ} {sel : List (ℕ × ℕ)} (hok : SelOK n sel) :
    (sel.map Prod.fst).Nodup := by
  refine List.Pairwise.map Prod.fst ?_ hok.2
  intro a b hab
  exact hab.1

theorem nprime_le {n : ℕ} {sel : List (ℕ × ℕ)} (hok : SelOK n sel) :
    sel.length + (singlesOf n sel).length ≤ n := by
  have hnd : (sel.map Prod.fst ++ singlesOf n sel).Nodup :=
    List.Nodup.append (fsts_nodup hok) (singles_nodup n sel)
      fsts_disjoint_singles
  have hsub : sel.map Prod.fst ++ singlesOf n sel ⊆ List.range n := by
    intro a ha
    rcases List.mem_append.mp ha with h1 | h1
    · rcases List.mem_map.mp h1 with ⟨p, hp, rfl⟩
      exact List.mem_range.mpr (hok.1 p hp).1
    · exact List.mem_range.mpr (List.mem_range.mp (List.mem_filter.mp h1).1)
  have := (List.subperm_of_subset hnd hsub).length_le
  rw [List.length_append, List.length_map, List.length_range] at this
  exact this

theorem nprime_lt {n : ℕ} {sel : List (ℕ × ℕ)} (hok : SelOK n sel)
    {q : ℕ × ℕ} (hq : q ∈ sel) (hqd : q.1 ≠ q.2) :
    sel.length + (singlesOf n sel).length < n := by
  have hq2fst : q.2 ∉ sel.map Prod.fst := by
    intro hmem
    rcases List.mem_map.mp hmem with ⟨p, hp, hpe⟩
    by_cases hpq : p = q
    · subst hpq
      exact hqd hpe
    · have hd : pdisj p q := List.Pairwise.forall pdisj_symm hok.2 hp hq hpq
      exact hd.2.1 hpe
  have hq2single : q.2 ∉ singlesOf n sel := by
    intro hmem
    have h1 : (pairIdx? sel q.2).isNone = true := (List.mem_filter.mp hmem).2
    have h2 : pairIdx? sel q.2 = none := by
      cases hp : pairIdx? sel q.2 with
      | none => rfl
      | some k =>
        rw [hp] at h1
        cases h1
    exact (pairIdx?_eq_none_iff.mp h2)
      (mem_endpoints.mpr ⟨q, hq, Or.inr rfl⟩)
  have hnd : (q.2 :: (sel.map Prod.fst ++ singlesOf n sel)).Nodup := by
    rw [List.nodup_cons]
    refine ⟨?_, List.Nodup.append (fsts_nodup hok) (singles_nodup n sel)
      fsts_disjoint_singles⟩
    intro hmem
    rcases List.mem_append.mp hmem with h1 | h1
    · exact hq2fst h1
    · exact hq2single h1
  have hsub : q.2 :: (sel.map Prod.fst ++ singlesOf n sel) ⊆ List.range n := by
    intro a ha
    rcases List.mem_cons.mp ha with rfl | h1
    · exact List.mem_range.mpr (hok.1 q hq).2
    rcases List.mem_append.mp h1 with h2 | h2
    · rcases List.mem_map.mp h2 with ⟨p, hp, rfl⟩
      exact List.mem_range.mpr (hok.1 p hp).1
    · exact List.mem_range.mpr (List.mem_range.mp (List.mem_filter.mp h2).1)
  have := (List.subperm_of_subset hnd hsub).length_le
  simp only [List.length_cons, List.length_append, List.length_map,
    List.length_range] at this
  omega

/-- The mesh's adjacency has no self-loop entries. -/
def NoSelfLoopsAdj (mesh : ProcessMesh) : Prop :=
  ∀ p ∈ mesh.adjacency_face.enum, ∀ en ∈ p.2, en.1 ≠ p.1

theorem mem_ranking_no_self {mesh : ProcessMesh} (hns : NoSelfLoopsAdj mesh) :
    ∀ e ∈ ranking mesh, e.2.1 ≠ e.1 := by
  intro e he
  unfold ranking at he
  rcases List.mem_flatMap.mp he with ⟨p, hp, he2⟩
  rcases List.mem_map.mp he2 with ⟨en, hen, hsh⟩
  subst hsh
  exact hns p hp en hen

theorem coarsen_vertices_length (mesh : ProcessMesh) (hWF : MeshWF mesh) :
    (coarsen mesh).1.vertices.length =
      (selOf mesh).length +
        (singlesOf mesh.vertices.length (selOf mesh)).length := by
  rw [coarsen_fst mesh hWF]
  exact stateFull_vertices_length mesh (selOf mesh)

theorem coarsen_count_le (mesh : ProcessMesh) (hWF : MeshWF mesh) :
    (coarsen mesh).1.vertices.length ≤ mesh.vertices.length := by
  rw [coarsen_vertices_length mesh hWF]
  exact nprime_le (selOK_selOf mesh hWF)

theorem coarsen_count_lt (mesh : ProcessMesh) (hWF : MeshWF mesh)
    {q : ℕ × ℕ} (hq : q ∈ selOf mesh) (hqd : q.1 ≠ q.2) :
    (coarsen mesh).1.vertices.length < mesh.vertices.length := by
  rw [coarsen_vertices_length mesh hWF]
  exact nprime_lt (selOK_selOf mesh hWF) hq hqd

theorem foldl_preserve_mem {α β : Type} (P : β → Prop) (f : β → α → β) :
    ∀ (l : List α), (∀ b, ∀ a ∈ l, P b → P (f b a)) →
      ∀ b, P b → P (l.foldl f b) := by
  intro l
  induction l with
  | nil => intro _ b hb; exact hb
  | cons a t ih =>
    intro hf b hb
    rw [List.foldl_cons]
    exact ih (fun b2 a2 ha2 hb2 => hf b2 a2 (List.mem_cons_of_mem a ha2) hb2)
      (f b a) (hf b a (List.mem_cons_self a t) hb)

theorem coarseAdjacencyRaw_length (mesh : ProcessMesh) (up : List ℕ) (nv : ℕ) :
    (coarseAdjacencyRaw mesh up nv).length = nv := by
  unfold coarseAdjacencyRaw
  apply foldl_preserve (fun acc : List (List (ℕ × ℕ)) => acc.length = nv)
  · intro acc p hacc
    apply foldl_preserve (fun acc2 : List (List (ℕ × ℕ)) => acc2.length = nv)
    · intro acc2 e h2
      show (if up.getD p.1 usizeMax ≠ up.getD e.1 usizeMax then
          acc2.set (up.getD p.1 usizeMax)
            (acc2.getD (up.getD p.1 usizeMax) [] ++
              [(up.getD e.1 usizeMax, usizeMax)])
        else acc2).length = nv
      by_cases hij : up.getD p.1 usizeMax ≠ up.getD e.1 usizeMax
      · rw [if_pos hij, List.length_set]
        exact h2
      · rw [if_neg hij]
        exact h2
    · exact hacc
  · simp

theorem coarseAdjacencyRaw_entries (mesh : ProcessMesh) (up : List ℕ) (nv : ℕ)
    (hup : ∀ p ∈ mesh.adjacency_face.enum, ∀ e ∈ p.2,
      up.getD e.1 usizeMax < nv) :
    ∀ l ∈ coarseAdjacencyRaw mesh up nv, ∀ en ∈ l, en.1 < nv := by
  unfold coarseAdjacencyRaw
  apply foldl_preserve_mem
    (fun acc : List (List (ℕ × ℕ)) => ∀ l ∈ acc, ∀ en ∈ l, en.1 < nv)
  · intro acc p hp hacc
    apply foldl_preserve_mem
      (fun acc2 : List (List (ℕ × ℕ)) => ∀ l ∈ acc2, ∀ en ∈ l, en.1 < nv)
    · intro acc2 e he h2
      show ∀ l ∈ (if up.getD p.1 usizeMax ≠ up.getD e.1 usizeMax then
          acc2.set (up.getD p.1 usizeMax)
            (acc2.getD (up.getD p.1 usizeMax) [] ++
              [(up.getD e.1 usizeMax, usizeMax)])
        else acc2), ∀ en ∈ l, en.1 < nv
      by_cases hij : up.getD p.1 usizeMax ≠ up.getD e.1 usizeMax
      · rw [if_pos hij]
        intro l hl en hen
        rcases mem_of_mem_set _ _ _ _ hl with h3 | h3
        · exact h2 l h3 en hen
        · subst h3
          rcases List.mem_append.mp hen with h4 | h4
          · by_cases hlt : up.getD p.1 usizeMax < acc2.length
            · exact h2 _ (getD_mem_of_lt _ _ _ hlt) en h4
            · rw [List.getD_eq_default _ _ (by omega)] at h4
              cases h4
          · rw [List.mem_singleton.mp h4]
            exact hup p hp e he
      · rw [if_neg hij]
        exact h2
    · exact hacc
  · intro l hl en hen
    rw [List.eq_of_mem_replicate hl] at hen
    cases hen

theorem coarseAdjacencyRaw_no_self (mesh : ProcessMesh) (up : List ℕ) (nv : ℕ) :
    ∀ (k : ℕ) (l : List (ℕ × ℕ)), (coarseAdjacencyRaw mesh up nv)[k]? = some l →
      ∀ en ∈ l, en.1 ≠ k := by
  unfold coarseAdjacencyRaw
  apply foldl_preserve
    (fun acc : List (List (ℕ × ℕ)) =>
      ∀ (k : ℕ) (l : List (ℕ × ℕ)), acc[k]? = some l → ∀ en ∈ l, en.1 ≠ k)
  · intro acc p hacc
    apply foldl_preserve
      (fun acc2 : List (List (ℕ × ℕ)) =>
        ∀ (k : ℕ) (l : List (ℕ × ℕ)), acc2[k]? = some l → ∀ en ∈ l, en.1 ≠ k)
    · intro acc2 e h2
      show ∀ (k : ℕ) (l : List (ℕ × ℕ)),
        (if up.getD p.1 usizeMax ≠ up.getD e.1 usizeMax then
          acc2.set (up.getD p.1 usizeMax)
            (acc2.getD (up.getD p.1 usizeMax) [] ++
              [(up.getD e.1 usizeMax, usizeMax)])
        else acc2)[k]? = some l → ∀ en ∈ l, en.1 ≠ k
      by_cases hij : up.getD p.1 usizeMax ≠ up.getD e.1 usizeMax
      · rw [if_pos hij]
        intro k l hkl en hen
        by_cases hki : k = up.getD p.1 usizeMax
        · rw [← hki] at hkl
          by_cases hlt : k < acc2.length
          · rw [List.getElem?_set_self hlt] at hkl
            obtain rfl : acc2.getD k [] ++ [(up.getD e.1 usizeMax, usizeMax)] = l :=
              Option.some.inj hkl
            rcases List.mem_append.mp hen with h4 | h4
            · have hgd : acc2.getD k [] = acc2[k] := by
                rw [List.getD_eq_getElem?_getD, List.getElem?_eq_getElem hlt]
                rfl
              rw [hgd] at h4
              exact h2 k _ (List.getElem?_eq_getElem hlt) en h4
            · rw [List.mem_singleton.mp h4]
              show up.getD e.1 usizeMax ≠ k
              rw [hki]
              exact fun hh => hij hh.symm
          · rw [List.set_eq_of_length_le (by omega)] at hkl
            rw [List.getElem?_eq_none (by omega)] at hkl
            cases hkl
        · rw [List.getElem?_set_ne (fun hh => hki hh.symm)] at hkl
          exact h2 k l hkl en hen
      · rw [if_neg hij]
        exact h2
    · exact hacc
  · intro k l hkl en hen
    have : l = [] := by
      rw [List.getElem?_replicate] at hkl
      by_cases hknv : k < nv
      · rw [if_pos hknv] at hkl
        exact (Option.some.inj hkl).symm
      · rw [if_neg hknv] at hkl
        cases hkl
    subst this
    cases hen

theorem coarseAdjacency_length (mesh : ProcessMesh) (up : List ℕ) (nv : ℕ) :
    (coarseAdjacency mesh up nv).length = nv := by
  unfold coarseAdjacency
  rw [List.length_map]
  exact coarseAdjacencyRaw_length mesh up nv

theorem coarseAdjacency_entries (mesh : ProcessMesh) (up : List ℕ) (nv : ℕ)
    (hup : ∀ p ∈ mesh.adjacency_face.enum, ∀ e ∈ p.2,
      up.getD e.1 usizeMax < nv) :
    ∀ l ∈ coarseAdjacency mesh up nv, ∀ en ∈ l, en.1 < nv := by
  intro l hl en hen
  unfold coarseAdjacency at hl
  rcases List.mem_map.mp hl with ⟨l0, hl0, rfl⟩
  have h1 : en ∈ l0.insertionSort keyLE := dedupC_subset _ en hen
  have h2 : en ∈ l0 := (List.mem_insertionSort keyLE).mp h1
  exact coarseAdjacencyRaw_entries mesh up nv hup l0 hl0 en h2

theorem coarseAdjacency_no_self (mesh : ProcessMesh) (up : List ℕ) (nv : ℕ) :
    ∀ (k : ℕ) (hk : k < (coarseAdjacency mesh up nv).length),
      ∀ en ∈ (coarseAdjacency mesh up nv)[k], en.1 ≠ k := by
  intro k hk en hen
  have hk2 : k < (coarseAdjacencyRaw mesh up nv).length := by
    rw [coarseAdjacency_length] at hk
    rw [coarseAdjacencyRaw_length]
    exact hk
  have hmap : (coarseAdjacency mesh up nv)[k] =
      dedupC (List.insertionSort keyLE ((coarseAdjacencyRaw mesh up nv)[k])) := by
    unfold coarseAdjacency
    rw [List.getElem_map]
  rw [hmap] at hen
  have h2 : en ∈ (coarseAdjacencyRaw mesh up nv)[k] :=
    (List.mem_insertionSort keyLE).mp (dedupC_subset _ en hen)
  exact coarseAdjacencyRaw_no_self mesh up nv k _
    (List.getElem?_eq_getElem hk2) en h2

theorem stateFull_normals_length (mesh : ProcessMesh) (sel : List (ℕ × ℕ)) :
    (stateFull mesh sel).normals.length =
      sel.length + (singlesOf mesh.vertices.length sel).length := by
  show (sel.map (mergedNrm mesh) ++
    (singlesOf mesh.vertices.length sel).map
      (fun v => mesh.normals.getD v 0)).length = _
  rw [List.length_append, List.length_map, List.length_map]

theorem stateFull_dual_length (mesh : ProcessMesh) (sel : List (ℕ × ℕ)) :
    (stateFull mesh sel).dual_area.length =
      sel.length + (singlesOf mesh.vertices.length sel).length := by
  show (sel.map (mergedArea mesh) ++
    (singlesOf mesh.vertices.length sel).map
      (fun v => mesh.dual_area.getD v 0)).length = _
  rw [List.length_append, List.length_map, List.length_map]

theorem coarsen_up_lt (mesh : ProcessMesh) (hWF : MeshWF mesh) :
    ∀ p ∈ mesh.adjacency_face.enum, ∀ e ∈ p.2,
      (stateFull mesh (selOf mesh)).up_mapping.getD e.1 usizeMax <
        (coarsen mesh).1.vertices.length := by
  intro p hp e he
  have hj : e.1 < mesh.vertices.length := by
    have h1 : mesh.adjacency_face[p.1]? = some p.2 :=
      List.mem_enum_iff_getElem?.mp hp
    have h2 : p.1 < mesh.adjacency_face.length := by
      by_contra hcon
      rw [List.getElem?_eq_none (by omega)] at h1
      cases h1
    have h3 : p.2 ∈ mesh.adjacency_face := by
      have hget : mesh.adjacency_face[p.1] = p.2 := by
        have := List.getElem?_eq_getElem h2
        rw [h1] at this
        exact (Option.some.inj this).symm
      rw [← hget]
      exact List.getElem_mem h2
    exact hWF.2.2.2.1 p.2 h3 e he
  show (upFull mesh.vertices.length (selOf mesh)).getD e.1 usizeMax < _
  rw [upFull_getD _ _ _ hj, coarsen_vertices_length mesh hWF]
  exact upFullValue_lt (selOf mesh) hj

theorem coarsen_wf (mesh : ProcessMesh) (hWF : MeshWF mesh) :
    MeshWF (coarsen mesh).1 := by
  have hv := coarsen_vertices_length mesh hWF
  refine ⟨?_, ?_, ?_, ?_, ?_⟩
  · rw [coarsen_fst mesh hWF]
    show (stateFull mesh (selOf mesh)).normals.length =
      (stateFull mesh (selOf mesh)).vertices.length
    rw [stateFull_normals_length, stateFull_vertices_length]
  · rw [coarsen_fst mesh hWF]
    show (stateFull mesh (selOf mesh)).dual_area.length =
      (stateFull mesh (selOf mesh)).vertices.length
    rw [stateFull_dual_length, stateFull_vertices_length]
  · rw [coarsen_fst mesh hWF]
    show (coarseAdjacency mesh (stateFull mesh (selOf mesh)).up_mapping
      (stateFull mesh (selOf mesh)).vertices.length).length =
      (stateFull mesh (selOf mesh)).vertices.length
    exact coarseAdjacency_length _ _ _
  · intro l hl e he
    have hl2 : l ∈ (coarsen mesh).1.adjacency_face := hl
    rw [coarsen_fst mesh hWF] at hl2
    have := coarseAdjacency_entries mesh
      (stateFull mesh (selOf mesh)).up_mapping
      (stateFull mesh (selOf mesh)).vertices.length
      (by
        intro p hp e2 he2
        have := coarsen_up_lt mesh hWF p hp e2 he2
        rw [coarsen_vertices_length mesh hWF] at this
        rw [stateFull_vertices_length]
        exact this)
      l hl2 e he
    rw [stateFull_vertices_length] at this
    rw [coarsen_vertices_length mesh hWF]
    exact this
  · rw [coarsen_vertices_length mesh hWF]
    have h1 := nprime_le (selOK_selOf mesh hWF)
    have h2 := hWF.2.2.2.2
    omega

theorem coarsen_no_self_adj (mesh : ProcessMesh) (hWF : MeshWF mesh) :
    NoSelfLoopsAdj (coarsen mesh).1 := by
  intro p hp en hen
  have h1 : (coarsen mesh).1.adjacency_face[p.1]? = some p.2 :=
    List.mem_enum_iff_getElem?.mp hp
  have h2 : p.1 < (coarsen mesh).1.adjacency_face.length := by
    by_contra hcon
    rw [List.getElem?_eq_none (by omega)] at h1
    cases h1
  have hget : (coarsen mesh).1.adjacency_face[p.1] = p.2 := by
    have := List.getElem?_eq_getElem h2
    rw [h1] at this
    exact (Option.some.inj this).symm
  have h2b : p.1 < (coarseAdjacency mesh
      (stateFull mesh (selOf mesh)).up_mapping
      (stateFull mesh (selOf mesh)).vertices.length).length := by
    have := h2
    rw [coarsen_fst mesh hWF] at this
    exact this
  have hen2 : en ∈ (coarseAdjacency mesh
      (stateFull mesh (selOf mesh)).up_mapping
      (stateFull mesh (selOf mesh)).vertices.length)[p.1] := by
    have hg2 : (coarseAdjacency mesh
        (stateFull mesh (selOf mesh)).up_mapping
        (stateFull mesh (selOf mesh)).vertices.length)[p.1] = p.2 := by
      rw [← hget]
      congr 1
      rw [coarsen_fst mesh hWF]
    rw [hg2]
    exact hen
  exact coarseAdjacency_no_self mesh _ _ p.1 h2b en hen2

instance (mesh : ProcessMesh) : Decidable (NoSelfLoopsAdj mesh) := by
  unfold NoSelfLoopsAdj
  infer_instance

/-- Fuel bound sufficient for `build` to reach the terminal case: twice the
vertex count, plus one when the adjacency still has self-loop entries. -/
def buildFuel (mesh : ProcessMesh) : ℕ :=
  2 * mesh.vertices.length + (if NoSelfLoopsAdj mesh then 0 else 1)

theorem ranking_nonempty_pos (mesh : ProcessMesh) (hWF : MeshWF mesh)
    (h : ¬(ranking mesh).isEmpty = true) : 0 < mesh.vertices.length := by
  have hne : ranking mesh ≠ [] := by
    intro hnil
    rw [hnil] at h
    exact h rfl
  rcases List.exists_mem_of_ne_nil _ hne with ⟨e, he⟩
  have := (mem_ranking_shape mesh e he).2.1
  rw [hWF.2.2.1] at this
  omega

theorem sortedRanking_cons (mesh : ProcessMesh)
    (h : ¬(ranking mesh).isEmpty = true) :
    ∃ e es, sortedRanking mesh = e :: es := by
  have hne : ranking mesh ≠ [] := by
    intro hnil
    rw [hnil] at h
    exact h rfl
  cases hs : sortedRanking mesh with
  | nil =>
    exfalso
    have hperm := List.perm_insertionSort rankLE (ranking mesh)
    unfold sortedRanking at hs
    rw [hs] at hperm
    exact hne hperm.nil_eq.symm
  | cons e es => exact ⟨e, es, rfl⟩

theorem selOf_head_mem (mesh : ProcessMesh) (e : ℕ × ℕ × ℝ)
    (es : List (ℕ × ℕ × ℝ)) (heq : sortedRanking mesh = e :: es) :
    (e.1, e.2.1) ∈ selOf mesh ∧ e ∈ ranking mesh := by
  constructor
  · unfold selOf
    rw [heq]
    have hsel : specSelect [] (e :: es) =
        (e.1, e.2.1) :: specSelect (e.1 :: e.2.1 :: []) es := by
      show (if e.1 ∈ ([] : List ℕ) ∨ e.2.1 ∈ ([] : List ℕ) then
          specSelect [] es
        else (e.1, e.2.1) :: specSelect (e.1 :: e.2.1 :: []) es) = _
      rw [if_neg (by simp)]
    rw [hsel]
    exact List.mem_cons_self _ _
  · have : e ∈ sortedRanking mesh := by
      rw [heq]
      exact List.mem_cons_self e es
    unfold sortedRanking at this
    exact (List.perm_insertionSort rankLE (ranking mesh)).mem_iff.mp this

theorem selOf_ne_nil (mesh : ProcessMesh)
    (h : ¬(ranking mesh).isEmpty = true) : selOf mesh ≠ [] := by
  rcases sortedRanking_cons mesh h with ⟨e, es, heq⟩
  intro hnil
  have := (selOf_head_mem mesh e es heq).1
  rw [hnil] at this
  cases this

theorem buildFuel_decrease (mesh : ProcessMesh) (hWF : MeshWF mesh)
    (hne : ¬(ranking mesh).isEmpty = true) :
    buildFuel (coarsen mesh).1 < buildFuel mesh := by
  by_cases hq : ∃ q ∈ selOf mesh, q.1 ≠ q.2
  · rcases hq with ⟨q, hq1, hq2⟩
    have hlt := coarsen_count_lt mesh hWF hq1 hq2
    unfold buildFuel
    split_ifs <;> omega
  · push_neg at hq
    rcases sortedRanking_cons mesh hne with ⟨e, es, heq⟩
    rcases selOf_head_mem mesh e es heq with ⟨hmem, hrank⟩
    have hself : e.1 = e.2.1 := hq (e.1, e.2.1) hmem
    have hnoself : ¬NoSelfLoopsAdj mesh := by
      intro hns
      exact (mem_ranking_no_self hns e hrank) hself.symm
    have hle := coarsen_count_le mesh hWF
    unfold buildFuel
    rw [if_pos (coarsen_no_self_adj mesh hWF), if_neg hnoself]
    omega

theorem build_some_of_fuel : ∀ (fuel : ℕ) (mesh : ProcessMesh),
    MeshWF mesh → buildFuel mesh ≤ fuel → (build fuel mesh).isSome = true := by
  intro fuel
  induction fuel with
  | zero =>
    intro mesh hWF hle
    rw [build_shape]
    by_cases hemp : (ranking mesh).isEmpty = true
    · rw [if_pos hemp]
      rfl
    · exfalso
      have hpos := ranking_nonempty_pos mesh hWF hemp
      unfold buildFuel at hle
      split_ifs at hle <;> omega
  | succ f ih =>
    intro mesh hWF hle
    rw [build_shape]
    by_cases hemp : (ranking mesh).isEmpty = true
    · rw [if_pos hemp]
      rfl
    · rw [if_neg hemp]
      have hdec := buildFuel_decrease mesh hWF hemp
      have hsome := ih (coarsen mesh).1 (coarsen_wf mesh hWF) (by omega)
      show (Option.map (fun up => up ++ [⟨mesh, (coarsen mesh).2⟩])
        (build f (coarsen mesh).1)).isSome = true
      cases hbuild : build f (coarsen mesh).1 with
      | none =>
        rw [hbuild] at hsome
        cases hsome
      | some L => rfl

theorem no_distinct_first (mesh : ProcessMesh)
    (hne : ¬(ranking mesh).isEmpty = true) (hns : NoSelfLoopsAdj mesh) :
    ∃ q ∈ selOf mesh, q.1 ≠ q.2 := by
  rcases sortedRanking_cons mesh hne with ⟨e, es, heq⟩
  rcases selOf_head_mem mesh e es heq with ⟨hmem, hrank⟩
  exact ⟨(e.1, e.2.1), hmem, fun hh => (mem_ranking_no_self hns e hrank) hh.symm⟩

/-- C6 (amended): the recursive hierarchy builder always terminates (the
fuel bound `buildFuel` suffices); the zero-edge case is the terminal,
non-recursing condition; and every non-terminal step performs at least one
merge and never increases the vertex count — the count strictly decreases
whenever the adjacency has no self-loop entries (as is the case for
triangles with three distinct vertices), but a degenerate self-loop edge
can merge a vertex with itself and leave the count unchanged. -/
theorem C6_termination_and_decrease (mesh : ProcessMesh) (hWF : MeshWF mesh) :
    (build (buildFuel mesh) mesh).isSome = true ∧
    ((ranking mesh).isEmpty = true → build 0 mesh = some [⟨mesh, []⟩]) ∧
    (¬(ranking mesh).isEmpty = true →
      selOf mesh ≠ [] ∧
      (coarsen mesh).1.vertices.length ≤ mesh.vertices.length ∧
      (NoSelfLoopsAdj mesh →
        (coarsen mesh).1.vertices.length < mesh.vertices.length)) := by
  refine ⟨build_some_of_fuel (buildFuel mesh) mesh hWF le_rfl, ?_, ?_⟩
  · intro hemp
    rw [build_shape, if_pos hemp]
  · intro hne
    refine ⟨selOf_ne_nil mesh hne, coarsen_count_le mesh hWF, ?_⟩
    intro hns
    rcases no_distinct_first mesh hne hns with ⟨q, hq1, hq2⟩
    exact coarsen_count_lt mesh hWF hq1 hq2

/-- Witness for the amended C6 theorem at the concrete mesh `mesh2`. -/
theorem C6_termination_and_decrease_witness :
    MeshWF mesh2 ∧
      ((build (buildFuel mesh2) mesh2).isSome = true ∧
      ((ranking mesh2).isEmpty = true → build 0 mesh2 = some [⟨mesh2, []⟩]) ∧
      (¬(ranking mesh2).isEmpty = true →
        selOf mesh2 ≠ [] ∧
        (coarsen mesh2).1.vertices.length ≤ mesh2.vertices.length ∧
        (NoSelfLoopsAdj mesh2 →
          (coarsen mesh2).1.vertices.length < mesh2.vertices.length))) :=
  ⟨mesh2_wf, C6_termination_and_decrease mesh2 mesh2_wf⟩

/-- Concrete mesh whose adjacency consists of self-loop entries only, as
degenerate triangles with a repeated vertex produce: both vertices merge
with themselves and the vertex count does not decrease. -/
noncomputable def meshSelf : ProcessMesh :=
  ⟨[⟨0, 0, 0⟩, ⟨1, 0, 0⟩], [⟨0, 0, 1⟩, ⟨1, 0, 0⟩], [],
    [[(0, 0)], [(1, 0)]], [1, 1]⟩

theorem meshSelf_wf : MeshWF meshSelf := by
  refine ⟨rfl, rfl, rfl, ?_, by decide⟩
  decide

theorem meshSelf_ranking : ranking meshSelf =
    [(0, 0, rankScore meshSelf 0 0), (1, 1, rankScore meshSelf 1 1)] := rfl

theorem meshSelf_rank0 : rankScore meshSelf 0 0 = 1 := by
  show dot ⟨0, 0, 1⟩ ⟨0, 0, 1⟩ *
    (if (1 : ℝ) > 1 then (1 : ℝ) / 1 else (1 : ℝ) / 1) = 1
  rw [if_neg (lt_irrefl (1 : ℝ))]
  norm_num [Vec3.dot]

theorem meshSelf_rank1 : rankScore meshSelf 1 1 = 1 := by
  show dot ⟨1, 0, 0⟩ ⟨1, 0, 0⟩ *
    (if (1 : ℝ) > 1 then (1 : ℝ) / 1 else (1 : ℝ) / 1) = 1
  rw [if_neg (lt_irrefl (1 : ℝ))]
  norm_num [Vec3.dot]

theorem meshSelf_sorted : sortedRanking meshSelf =
    [(0, 0, rankScore meshSelf 0 0), (1, 1, rankScore meshSelf 1 1)] := by
  unfold sortedRanking
  rw [meshSelf_ranking]
  have h1 : List.insertionSort rankLE [(1, 1, rankScore meshSelf 1 1)] =
      [(1, 1, rankScore meshSelf 1 1)] := rfl
  show List.orderedInsert rankLE (0, 0, rankScore meshSelf 0 0)
    (List.insertionSort rankLE [(1, 1, rankScore meshSelf 1 1)]) = _
  rw [h1]
  show (if rankLE (0, 0, rankScore meshSelf 0 0) (1, 1, rankScore meshSelf 1 1)
    then (0, 0, rankScore meshSelf 0 0) :: [(1, 1, rankScore meshSelf 1 1)]
    else (1, 1, rankScore meshSelf 1 1) ::
      List.orderedInsert rankLE (0, 0, rankScore meshSelf 0 0) []) = _
  rw [if_pos]
  show rankScore meshSelf 1 1 ≤ rankScore meshSelf 0 0
  rw [meshSelf_rank0, meshSelf_rank1]

theorem meshSelf_sel : selOf meshSelf = [(0, 0), (1, 1)] := by
  unfold selOf
  rw [meshSelf_sorted]
  rfl

/-- Counterexample to C6 as stated: `meshSelf` is a well-formed input on
which the builder takes a non-terminal step (the ranking is non-empty),
yet the coarsening step does not strictly reduce the vertex count — both
edges are self-loops, so each vertex merges with itself. -/
theorem C6_counterexample_no_strict_decrease :
    MeshWF meshSelf ∧ ¬(ranking meshSelf).isEmpty = true ∧
      (coarsen meshSelf).1.vertices.length = meshSelf.vertices.length := by
  refine ⟨meshSelf_wf, ?_, ?_⟩
  · rw [meshSelf_ranking]
    simp
  · rw [coarsen_vertices_length meshSelf meshSelf_wf, meshSelf_sel]
    rw [show singlesOf meshSelf.vertices.length [(0, 0), (1, 1)] = [] from rfl]
    rfl

/-! ### C7: well-formedness of every built hierarchy -/

def defaultLevel : HierarchyLevel := ⟨emptyMesh, []⟩

/-- Hierarchy well-formedness as the claim states it: the coarsest level
has an empty adjacency (or at most one vertex) and an empty up-mapping,
and for every finer level the up-mapping has one entry per vertex, each a
valid vertex index of the next coarser mesh. -/
def HierWF (levels : List HierarchyLevel) : Prop :=
  levels ≠ [] ∧
  (∀ l0, levels.head? = some l0 →
    l0.up_mapping = [] ∧
    ((∀ a ∈ l0.mesh.adjacency_face, a = []) ∨ l0.mesh.vertices.length ≤ 1)) ∧
  (∀ k, 0 < k → k < levels.length →
    (levels.getD k defaultLevel).up_mapping.length =
      (levels.getD k defaultLevel).mesh.vertices.length ∧
    ∀ v ∈ (levels.getD k defaultLevel).up_mapping,
      v < (levels.getD (k - 1) defaultLevel).mesh.vertices.length)

theorem ranking_empty_adj (mesh : ProcessMesh)
    (h : (ranking mesh).isEmpty = true) :
    ∀ l ∈ mesh.adjacency_face, l = [] := by
  intro l hl
  cases hcase : l with
  | nil => rfl
  | cons e t =>
    exfalso
    rcases List.mem_iff_getElem.mp hl with ⟨i, hi, hget⟩
    have henum : (i, l) ∈ mesh.adjacency_face.enum := by
      apply List.mem_enum_iff_getElem?.mpr
      show mesh.adjacency_face[i]? = some l
      rw [List.getElem?_eq_getElem hi, hget]
    have hmem : (i, e.1, rankScore mesh i e.1) ∈ ranking mesh := by
      unfold ranking
      apply List.mem_flatMap.mpr
      refine ⟨(i, l), henum, List.mem_map.mpr ⟨e, ?_, rfl⟩⟩
      rw [hcase]
      exact List.mem_cons_self e t
    rw [List.isEmpty_iff] at h
    rw [h] at hmem
    cases hmem

theorem upFull_length (n : ℕ) (sel : List (ℕ × ℕ)) :
    (upFull n sel).length = n := by
  unfold upFull
  simp

/-- C7: every hierarchy returned by the builder is well-formed: the
coarsest level has an all-empty adjacency (hence satisfies the claim's
disjunction) and an empty up-mapping, and every finer level's up-mapping
has one entry per vertex, each a valid vertex index of the next coarser
mesh. -/
theorem C7_hierarchy_well_formed : ∀ (fuel : ℕ) (mesh : ProcessMesh)
    (L : List HierarchyLevel), MeshWF mesh → build fuel mesh = some L →
    HierWF L := by
  intro fuel
  induction fuel with
  | zero =>
    intro mesh L hWF hb
    rw [build_shape] at hb
    by_cases hemp : (ranking mesh).isEmpty = true
    · rw [if_pos hemp] at hb
      obtain rfl : [(⟨mesh, []⟩ : HierarchyLevel)] = L := Option.some.inj hb
      refine ⟨by simp, ?_, ?_⟩
      · intro l0 hl0
        obtain rfl : (⟨mesh, []⟩ : HierarchyLevel) = l0 := Option.some.inj hl0
        exact ⟨rfl, Or.inl (ranking_empty_adj mesh hemp)⟩
      · intro k hk0 hk1
        simp at hk1
        omega
    · rw [if_neg hemp] at hb
      cases hb
  | succ f ih =>
    intro mesh L hWF hb
    rw [build_shape] at hb
    by_cases hemp : (ranking mesh).isEmpty = true
    · rw [if_pos hemp] at hb
      obtain rfl : [(⟨mesh, []⟩ : HierarchyLevel)] = L := Option.some.inj hb
      refine ⟨by simp, ?_, ?_⟩
      · intro l0 hl0
        obtain rfl : (⟨mesh, []⟩ : HierarchyLevel) = l0 := Option.some.inj hl0
        exact ⟨rfl, Or.inl (ranking_empty_adj mesh hemp)⟩
      · intro k hk0 hk1
        simp at hk1
        omega
    · rw [if_neg hemp] at hb
      have hb2 : (build f (coarsen mesh).1).map
          (fun up => up ++ [⟨mesh, (coarsen mesh).2⟩]) = some L := hb
      rw [Option.map_eq_some'] at hb2
      obtain ⟨L2, hL2, rfl⟩ := hb2
      have hwfc := coarsen_wf mesh hWF
      have hih := ih (coarsen mesh).1 L2 hwfc hL2
      rcases build_last_mesh f (coarsen mesh).1 L2 hL2 with ⟨hne2, lv, hlast, hlvm⟩
      obtain ⟨a, t, rfl⟩ : ∃ a t, L2 = a :: t := by
        cases L2 with
        | nil => exact absurd rfl hne2
        | cons a t => exact ⟨a, t, rfl⟩
      refine ⟨by simp, ?_, ?_⟩
      · intro l0 hl0
        have : (a :: t ++ [(⟨mesh, (coarsen mesh).2⟩ : HierarchyLevel)]).head? =
            some a := rfl
        rw [this] at hl0
        exact (Option.some.inj hl0) ▸ hih.2.1 a rfl
      · intro k hk0 hk1
        rw [List.length_append, List.length_cons] at hk1
        simp only [List.length_singleton] at hk1
        by_cases hk2 : k < (a :: t).length
        · have hgk : ((a :: t) ++
              [(⟨mesh, (coarsen mesh).2⟩ : HierarchyLevel)]).getD k defaultLevel =
              (a :: t).getD k defaultLevel := by
            rw [List.getD_append _ _ _ _ hk2]
          have hgk1 : ((a :: t) ++
              [(⟨mesh, (coarsen mesh).2⟩ : HierarchyLevel)]).getD (k - 1)
                defaultLevel = (a :: t).getD (k - 1) defaultLevel := by
            rw [List.getD_append _ _ _ _ (by omega)]
          rw [hgk, hgk1]
          exact hih.2.2 k hk0 hk2
        · have hkeq : k = (a :: t).length := by
            simp at hk2 hk1 ⊢
            omega
          have hgk : ((a :: t) ++
              [(⟨mesh, (coarsen mesh).2⟩ : HierarchyLevel)]).getD k defaultLevel =
              ⟨mesh, (coarsen mesh).2⟩ := by
            rw [List.getD_append_right _ _ _ _ (by omega), hkeq, Nat.sub_self]
            rfl
          have hlen1 : 1 ≤ (a :: t).length := by simp
          have hgk1 : ((a :: t) ++
              [(⟨mesh, (coarsen mesh).2⟩ : HierarchyLevel)]).getD (k - 1)
                defaultLevel = lv := by
            rw [List.getD_append _ _ _ _ (by omega)]
            have hgl : (a :: t).getLast? =
                (a :: t)[(a :: t).length - 1]? :=
              List.getLast?_eq_getElem? (a :: t)
            rw [hlast] at hgl
            rw [List.getD_eq_getElem?_getD, hkeq, ← hgl]
            rfl
          rw [hgk, hgk1]
          constructor
          · show (coarsen mesh).2.length = mesh.vertices.length
            rw [coarsen_snd mesh hWF, upFull_length]
          · intro v hv
            rw [coarsen_snd mesh hWF] at hv
            unfold upFull at hv
            rcases List.mem_map.mp hv with ⟨w, hw, rfl⟩
            have hwn : w < mesh.vertices.length := List.mem_range.mp hw
            rw [hlvm, coarsen_vertices_length mesh hWF]
            exact upFullValue_lt (selOf mesh) hwn

/-- Witness for C7 on the empty mesh. -/
theorem C7_hierarchy_well_formed_witness :
    (MeshWF emptyMesh ∧ build 0 emptyMesh = some [⟨emptyMesh, []⟩]) ∧
      HierWF [⟨emptyMesh, []⟩] := by
  have hwf : MeshWF emptyMesh := ⟨rfl, rfl, rfl, by decide, by decide⟩
  have hb : build 0 emptyMesh = some [⟨emptyMesh, []⟩] := rfl
  exact ⟨⟨hwf, hb⟩, C7_hierarchy_well_formed 0 emptyMesh _ hwf hb⟩

/-! ### C2 counterexample: inherited initial directions after propagation -/

/-- Coarsest level of the counterexample hierarchy: one vertex, the merged
normal `(1, 0, 0)` and dual area `2` that merging the two vertices of
`mesh2` produces. -/
noncomputable def lvlC : HierarchyLevel :=
  ⟨⟨[⟨1, 0, 0⟩], [⟨1, 0, 0⟩], [], [[]], [2]⟩, []⟩

/-- Finest level of the counterexample hierarchy: `mesh2`, whose two
vertices both map up to the single coarse vertex. -/
noncomputable def lvlF : HierarchyLevel := ⟨mesh2, [0, 0]⟩

theorem initVertexC (θ : ℝ) : initVertex ⟨1, 0, 0⟩ θ =
    Real.cos θ • (⟨0, 0, -1⟩ : Vec3) + Real.sin θ • (⟨0, 1, 0⟩ : Vec3) := by
  unfold initVertex
  ext <;> simp

theorem initVertexC2 : initVertex ⟨1, 0, 0⟩ (1 / 4 * tau) = (⟨0, 1, 0⟩ : Vec3) := by
  have hth : (1 / 4 : ℝ) * tau = Real.pi / 2 := by
    unfold tau
    ring
  rw [initVertexC, hth, Real.cos_pi_div_two, Real.sin_pi_div_two]
  ext <;> norm_num

theorem coarseSolve : hierarchical_smoothing pureRng [lvlC] 0 = [⟨0, 1, 0⟩] := by
  rw [hierarchical_smoothing_eq]
  have h0 : sweepIter pureRng (([lvlC] :
        List HierarchyLevel).getLast?.getD ⟨emptyMesh, []⟩).mesh 0
      (levelEntry pureRng [lvlC] 0) = levelEntry pureRng [lvlC] 0 := rfl
  rw [h0]
  have h1 : levelEntry pureRng [lvlC] 0 =
      (if _h : 1 < ([lvlC] : List HierarchyLevel).length then
        (propagate (hierarchical_smoothing pureRng
          ([lvlC] : List HierarchyLevel).dropLast 0) lvlC,
          pureRng.seedFromU64 0)
      else initField pureRng lvlC.mesh (pureRng.seedFromU64 0)) := rfl
  rw [h1, dif_neg (by simp : ¬ 1 < ([lvlC] : List HierarchyLevel).length)]
  rw [show (initField pureRng lvlC.mesh (pureRng.seedFromU64 0)).1 =
      [initVertex ⟨1, 0, 0⟩ (1 / 4 * tau)] from rfl, initVertexC2]

theorem entryF : (levelEntry pureRng [lvlC, lvlF] 0).1 =
    propagate (hierarchical_smoothing pureRng [lvlC] 0) lvlF := by
  have h1 : levelEntry pureRng [lvlC, lvlF] 0 =
      (if _h : 1 < ([lvlC, lvlF] : List HierarchyLevel).length then
        (propagate (hierarchical_smoothing pureRng
          ([lvlC, lvlF] : List HierarchyLevel).dropLast 0) lvlF,
          pureRng.seedFromU64 0)
      else initField pureRng lvlF.mesh (pureRng.seedFromU64 0)) := rfl
  rw [h1, dif_pos (by simp : 1 < ([lvlC, lvlF] : List HierarchyLevel).length)]
  rfl

/-- Counterexample to C2 as stated: in the well-formed two-level hierarchy
`[lvlC, lvlF]`, the initial direction that fine vertex 0 inherits by
propagation from the coarse solution is not orthogonal to that vertex's own
normal (their dot product is 4/5), even though it is tangent to the coarse
parent's merged normal.  The claim's "including inherited initial
directions after propagation" clause is therefore false. -/
theorem C2_counterexample_inherited_not_orthogonal :
    HierWF [lvlC, lvlF] ∧
      dot ((levelEntry pureRng [lvlC, lvlF] 0).1.getD 0 0)
        (lvlF.mesh.normals.getD 0 0) ≠ 0 := by
  constructor
  · refine ⟨by simp, ?_, ?_⟩
    · intro l0 hl0
      obtain rfl : lvlC = l0 := Option.some.inj hl0
      exact ⟨rfl, Or.inr (by rw [show lvlC.mesh.vertices.length = 1 from rfl])⟩
    · intro k hk0 hk1
      have hk : k = 1 := by
        rw [show ([lvlC, lvlF] : List HierarchyLevel).length = 2 from rfl] at hk1
        omega
      subst hk
      refine ⟨rfl, ?_⟩
      intro v hv
      have hv0 : v = 0 := by
        rw [show ([lvlC, lvlF] : List HierarchyLevel).getD 1 defaultLevel = lvlF
          from rfl] at hv
        rcases List.mem_cons.mp hv with h | h
        · exact h
        · simpa using h
      subst hv0
      show 0 < (([lvlC, lvlF] : List HierarchyLevel).getD 0
        defaultLevel).mesh.vertices.length
      rw [show (([lvlC, lvlF] : List HierarchyLevel).getD 0
        defaultLevel).mesh.vertices.length = 1 from rfl]
      omega
  · rw [entryF, coarseSolve]
    rw [show (propagate [(⟨0, 1, 0⟩ : Vec3)] lvlF).getD 0 0 = (⟨0, 1, 0⟩ : Vec3)
      from rfl]
    rw [show lvlF.mesh.normals.getD 0 0 = (⟨3 / 5, 4 / 5, 0⟩ : Vec3) from rfl]
    intro h
    rw [show dot ⟨0, 1, 0⟩ (⟨3 / 5, 4 / 5, 0⟩ : Vec3) =
      0 * (3 / 5) + 1 * (4 / 5) + 0 * 0 from rfl] at h
    norm_num at h

end FG
